import Mathlib

/-! Shallow embedding of the maze generator and sparsifier of `dungeon.py`
(class `Maze`: methods `generate` and `sparsify`, plus the module-level
tables they use).  Cells are integer pairs; a grid is the `visited`
dictionary as an insertion-ordered association list; the random source is a
pair of streams: the cells successive `random_cell()` calls return and the
permutations successive `sample(exits, 4)` calls return.  Masks are
integers, as in Python, so the sparsifier's arithmetic on them is exact,
negative results included. -/

/-- A grid cell, the Python pair `(x, y)`. -/
abbrev Cell : Type := Int × Int

/-- The `visited` dictionary, cell to exit bitmask, in insertion order.
Python 2 dict iteration order is implementation defined but fixed while no
key is added or removed; the embedding fixes insertion order. -/
abbrev Grid : Type := List (Cell × Int)

/-- Coordinates of the width times height grid. -/
def inBounds (w h : Int) (c : Cell) : Prop :=
  0 ≤ c.1 ∧ c.1 < w ∧ 0 ≤ c.2 ∧ c.2 < h

instance (w h : Int) (c : Cell) : Decidable (inBounds w h c) :=
  decidable_of_iff (0 ≤ c.1 ∧ c.1 < w ∧ 0 ≤ c.2 ∧ c.2 < h) Iff.rfl

/-- All cells of the grid, in the order of the Python dict comprehension
`for y in range(height) for x in range(width)`. -/
def allCells (w h : Int) : List Cell :=
  (List.range h.toNat).flatMap fun (y : Nat) =>
    (List.range w.toNat).map fun (x : Nat) => ((x : Int), (y : Int))

/-- Dictionary lookup. -/
def lookupCell : Grid → Cell → Option Int
  | [], _ => none
  | (d, m) :: g, c => if d = c then some m else lookupCell g c

/-- The mask a cell holds, `0` when the cell is not a key. -/
def maskAt (g : Grid) (c : Cell) : Int := (lookupCell g c).getD 0

/-- The keys of the dictionary, in order. -/
def keysOf (g : Grid) : List Cell := g.map Prod.fst

/-- Assignment `g[c] = v` to a present key, keeping its position; on an
absent key it is the identity, a case the source never executes (both
assignments in `sparsify` write to keys read from the dictionary itself). -/
def updateCell : Grid → Cell → Int → Grid
  | [], _, _ => []
  | (d, m) :: g, c, v => if d = c then (d, v) :: g else (d, m) :: updateCell g c v

/-- Python `visited[c] += d` in `sparsify`.  On an absent key Python raises
`KeyError`; the embedding is then the identity, and the bounds theorems show
the key is present whenever the source reaches this statement. -/
def addToCell (g : Grid) (c : Cell) (d : Int) : Grid :=
  match lookupCell g c with
  | some v => updateCell g c (v + d)
  | none => g

/-- Python `visited[current_cell] |= my_exit` in `generate`; the current
cell is always a key of `visited`. -/
def orCell (g : Grid) (c : Cell) (b : Int) : Grid :=
  match lookupCell g c with
  | some v => updateCell g c (Int.lor v b)
  | none => g

/-- Python `del unvisited[cell]`; only present keys are deleted. -/
def removeCell : List Cell → Cell → List Cell
  | [], _ => []
  | d :: l, c => if d = c then l else d :: removeCell l c

/-- The module-level `exits` table of `random_neighbour`: per direction the
delta `(xd, yd)`, the bit set on the current cell (`my_exit`) and the
mirrored bit set on the neighbour (`your_exit`).  South `(0,1)` is bit 1,
north `(0,-1)` bit 2, east `(1,0)` bit 4, west `(-1,0)` bit 8. -/
def exitsList : List ((Int × Int) × Int × Int) :=
  [((0, 1), 1, 2), ((0, -1), 2, 1), ((1, 0), 4, 8), ((-1, 0), 8, 4)]

/-- Python `mask & bit != 0` for `bit` one of 1, 2, 4, 8: the selected bit
of the two's-complement representation of `mask`.  Written arithmetically:
Lean's integer division floors for a positive divisor, so `mask / bit % 2`
is exactly that bit, also for negative masks. -/
def hasExit (m b : Int) : Prop := m / b % 2 = 1

instance (m b : Int) : Decidable (hasExit m b) :=
  decidable_of_iff (m / b % 2 = 1) Iff.rfl

/-- Number of exit bits (among 1, 2, 4, 8) set in a mask. -/
def popcnt (m : Int) : Nat :=
  (if hasExit m 1 then 1 else 0) + (if hasExit m 2 then 1 else 0)
    + (if hasExit m 4 then 1 else 0) + (if hasExit m 8 then 1 else 0)

/-- Total number of set exit bits over all cells; under the mirrored-edge
invariant each corridor is counted twice. -/
def bitSum (g : Grid) : Nat := (g.map fun e => popcnt e.2).sum

/-- The scan of `random_neighbour` over one `sample(exits, 4)` permutation:
the first direction whose neighbour `(xd+x, yd+y)` is an unvisited key. -/
def findNeighbour (unv : List Cell) (c : Cell) :
    List ((Int × Int) × Int × Int) → Option (Cell × Int × Int)
  | [] => none
  | (d, my, your) :: rest =>
    if (c.1 + d.1, c.2 + d.2) ∈ unv then some ((c.1 + d.1, c.2 + d.2), my, your)
    else findNeighbour unv c rest

/-- The random source: `cells i` is what the i-th `random_cell()` call
returns, `perms i` what the i-th `sample(exits, 4)` call returns. -/
structure Draws where
  cells : Nat → Cell
  perms : Nat → List ((Int × Int) × Int × Int)

/-- What the random library guarantees of the draws: `randint(0, width-1)`
and `randint(0, height-1)` return in-range coordinates, and `sample`
returns a permutation of the `exits` table. -/
def validDraws (w h : Int) (r : Draws) : Prop :=
  (∀ i, inBounds w h (r.cells i)) ∧ ∀ i, (r.perms i).Perm exitsList

/-- Control position inside `generate`: `walk` is the top of the main
`while len(unvisited) > 0` loop, `reject` the inner `while True`
rejection-sampling loop. -/
inductive Mode
  | walk
  | reject
  deriving DecidableEq

/-- The local state of `generate`: the two dictionaries, the current cell,
and how many draws of each stream are consumed. -/
structure GenState where
  mode : Mode
  unvisited : List Cell
  visited : Grid
  current : Cell
  ci : Nat
  pi : Nat

/-- One atomic step of `generate`'s loops.  In `walk` mode: the loop test,
then one `random_neighbour` call, carving a corridor on success and
entering the rejection loop on failure.  In `reject` mode: one
`random_cell()` draw.  `Sum.inr` is the final `self.visited = visited`. -/
def genStep (r : Draws) (s : GenState) : GenState ⊕ Grid :=
  match s.mode with
  | .walk =>
    if s.unvisited = [] then .inr s.visited
    else
      match findNeighbour s.unvisited s.current (r.perms s.pi) with
      | some (n, my, your) =>
        .inl { mode := .walk,
               unvisited := removeCell s.unvisited n,
               visited := orCell s.visited s.current my ++ [(n, your)],
               current := n, ci := s.ci, pi := s.pi + 1 }
      | none => .inl { s with mode := .reject, pi := s.pi + 1 }
  | .reject =>
    if (lookupCell s.visited (r.cells s.ci)).isSome then
      .inl { s with mode := .walk, current := r.cells s.ci, ci := s.ci + 1 }
    else .inl { s with mode := .reject, ci := s.ci + 1 }

/-- Run `generate`'s loops for at most `fuel` atomic steps; `none` when
they have not finished (for an arbitrary draw sequence they need not
terminate, see the divergence results). -/
def genRun (r : Draws) : Nat → GenState → Option Grid
  | 0, _ => none
  | fuel + 1, s =>
    match genStep r s with
    | .inr g => some g
    | .inl t => genRun r fuel t

/-- The state after the prologue of `generate`: `unvisited` holds every
cell, then `visit(random_cell(), 0)` moves the first drawn cell into
`visited` with mask 0. -/
def initState (w h : Int) (r : Draws) : GenState :=
  { mode := .walk,
    unvisited := removeCell (allCells w h) (r.cells 0),
    visited := [(r.cells 0, 0)],
    current := r.cells 0, ci := 1, pi := 0 }

/-- Observable outcome of `Maze.generate`. -/
inductive GenResult
  | invalidDim
  | diverged
  | ok (g : Grid)
  deriving DecidableEq

/-- `Maze.generate`.  When `width - 1 < 0` or `height - 1 < 0`, the first
`random_cell()` call raises `ValueError` inside `randint` before any state
is published (`self.visited` is only assigned at the very end), embedded as
`invalidDim`; otherwise the loops run on the draw streams. -/
def generate (w h : Int) (r : Draws) (fuel : Nat) : GenResult :=
  if w - 1 < 0 ∨ h - 1 < 0 then .invalidDim
  else
    match genRun r fuel (initState w h r) with
    | some g => .ok g
    | none => .diverged

/-- The `single_corridor` table of `sparsify`: for a mask that is exactly
one bit, the neighbour delta and the (negative) number added to the
neighbour's mask. -/
def single_corridor (mask : Int) : Option ((Int × Int) × Int) :=
  if mask = 1 then some ((0, 1), -2)
  else if mask = 2 then some ((0, -1), -1)
  else if mask = 4 then some ((1, 0), -8)
  else if mask = 8 then some ((-1, 0), -4)
  else none

/-- The `for (x, y), mask in visited.items()` loop of one sparsify pass:
`entries` is the snapshot list `items()` returned at the start of the
round, the second argument the dictionary being mutated. -/
def sparsifyItems : List (Cell × Int) → Grid → Grid
  | [], g => g
  | (c, mask) :: rest, g =>
    match single_corridor mask with
    | none => sparsifyItems rest g
    | some (d, diff) =>
      sparsifyItems rest (addToCell (updateCell g c 0) (c.1 + d.1, c.2 + d.2) diff)

/-- One pass of `sparsify`: one iteration of `for sp_pass in
range(sparseness)`. -/
def sparsifyPass (g : Grid) : Grid := sparsifyItems g g

/-- `Maze.sparsify(sparseness)`: `range(sparseness)` is empty when
`sparseness ≤ 0`, so `toNat` gives the number of rounds. -/
def sparsify (sparseness : Int) (g : Grid) : Grid :=
  sparsifyPass^[sparseness.toNat] g

/-- The mirrored-edge invariant: for every direction and every cell, the
exit bit toward the neighbour is set exactly when the neighbour's mirrored
bit is set (a cell that is not a key counts as mask 0). -/
def mirrorInv (g : Grid) : Prop :=
  ∀ e ∈ exitsList, ∀ c : Cell,
    (hasExit (maskAt g c) e.2.1 ↔ hasExit (maskAt g (c.1 + e.1.1, c.2 + e.1.2)) e.2.2)

/-- Vertex type of the maze graph: the cells of the width times height
grid. -/
abbrev GridCell (w h : Int) : Type := {c : Cell // inBounds w h c}

/-- Directed half of the adjacency: an exit bit of `a` points at `b`. -/
def exitToward (g : Grid) (a b : Cell) : Prop :=
  ∃ e ∈ exitsList, b = (a.1 + e.1.1, a.2 + e.1.2) ∧ hasExit (maskAt g a) e.2.1

instance (g : Grid) (a b : Cell) : Decidable (exitToward g a b) := by
  unfold exitToward; infer_instance

/-- The graph the exit bitmasks imply on the grid cells: two cells are
adjacent when either holds an exit bit toward the other. -/
def mazeGraph (w h : Int) (g : Grid) : SimpleGraph (GridCell w h) where
  Adj a b := exitToward g a.1 b.1 ∨ exitToward g b.1 a.1
  symm := by intro a b hab; tauto
  loopless := by
    intro a h
    have key : ∀ e ∈ exitsList, a.1 = (a.1.1 + e.1.1, a.1.2 + e.1.2) → False := by
      intro e he heq
      simp only [exitsList, List.mem_cons, List.not_mem_nil, or_false] at he
      rcases he with rfl | rfl | rfl | rfl <;>
        · rw [Prod.ext_iff] at heq
          simp only at heq
          omega
    rcases h with ⟨e, he, hb, _⟩ | ⟨e, he, hb, _⟩ <;> exact key e he hb

instance (w h : Int) (g : Grid) : DecidableRel (mazeGraph w h g).Adj :=
  fun _ _ => instDecidableOr

instance (w h : Int) : Fintype (GridCell w h) :=
  Fintype.subtype (allCells w h).toFinset (by
    intro c
    obtain ⟨cx, cy⟩ := c
    rw [List.mem_toFinset]
    unfold allCells inBounds
    constructor
    · intro hm
      rw [List.mem_flatMap] at hm
      obtain ⟨y, hy, hm2⟩ := hm
      rw [List.mem_map] at hm2
      obtain ⟨x, hx, heq⟩ := hm2
      rw [List.mem_range] at hy hx
      rw [Prod.mk.injEq] at heq
      omega
    · intro hb
      rw [List.mem_flatMap]
      refine ⟨cy.toNat, by rw [List.mem_range]; omega, ?_⟩
      rw [List.mem_map]
      refine ⟨cx.toNat, by rw [List.mem_range]; omega, ?_⟩
      rw [Prod.mk.injEq]
      omega)

/-- The draw stream returns every grid cell infinitely often (an event of
probability one for the uniform `randint` draws). -/
def fairCells (w h : Int) (r : Draws) : Prop :=
  ∀ c : Cell, inBounds w h c → ∀ i : Nat, ∃ j, i ≤ j ∧ r.cells j = c

/-- The loops of `generate` never finish from state `s` on draws `r`. -/
def divergesFrom (r : Draws) (s : GenState) : Prop :=
  ∀ fuel : Nat, genRun r fuel s = none

/-- Constant draw stream: every `random_cell()` returns `c` and every
`sample` returns the table in its stored order. -/
def constDraws (c : Cell) : Draws :=
  { cells := fun _ => c, perms := fun _ => exitsList }

/-- Adversarial but legal draws on the 3 by 1 grid: start at the middle
cell `(1, 0)`, then draw the never-visited corner `(0, 0)` forever. -/
def badDraws : Draws :=
  { cells := fun i => if i = 0 then (1, 0) else (0, 0),
    perms := fun _ => exitsList }

/-- The grid `generate` produces on the 2 by 1 maze when the first draw is
the cell `(0, 0)`. -/
def gTwo : Grid := [((0, 0), 4), ((1, 0), 8)]

/-- The inductive invariant of `generate`'s loops.  The visited keys and the
unvisited list partition the grid cells; the current cell is visited; every
mask is a 4-bit value; every set exit bit points at a visited neighbour
holding the mirrored bit; the number of set bits is twice the number of
corridors of a spanning tree of the visited cells; and the graph carved so
far is connected on the visited cells and acyclic. -/
structure GenInv (w h : Int) (s : GenState) : Prop where
  part : (keysOf s.visited ++ s.unvisited).Perm (allCells w h)
  curKey : s.current ∈ keysOf s.visited
  range : ∀ p ∈ s.visited, 0 ≤ p.2 ∧ p.2 < 16
  closure : ∀ p ∈ s.visited, ∀ e ∈ exitsList, hasExit p.2 e.2.1 →
    ∃ m2, lookupCell s.visited (p.1.1 + e.1.1, p.1.2 + e.1.2) = some m2 ∧
      hasExit m2 e.2.2
  count : bitSum s.visited + 2 = 2 * s.visited.length
  reach : ∀ a b : GridCell w h, a.1 ∈ keysOf s.visited →
    b.1 ∈ keysOf s.visited → (mazeGraph w h s.visited).Reachable a b
  acyclic : (mazeGraph w h s.visited).IsAcyclic

/-- Sum of the mirrored bits that the dead-end entries of the processed
prefix `P` of a round's snapshot subtract from the mask of cell `t`: for
each direction, the entry of the cell one step back holding exactly the bit
toward `t`. -/
def recvSum (P : List (Cell × Int)) (t : Cell) : Int :=
  (exitsList.map fun f =>
    if ((t.1 + f.1.1, t.2 + f.1.2), f.2.2) ∈ P then f.2.1 else 0).sum

/-- The processed prefix `P` contains a dead-end entry for `t`, so the round
has executed `visited[t] = 0`. -/
def zeroedBy (P : List (Cell × Int)) (t : Cell) : Prop :=
  ∃ b, (t, b) ∈ P ∧ (b = 1 ∨ b = 2 ∨ b = 4 ∨ b = 8)

/-- The state `sparsify` maintains between rounds: keys are exactly the
grid cells without duplicates, every mask is below 16, and every set exit
bit of a non-negative mask points at an in-bounds cell whose mask carries
the mirrored bit (in the two's-complement sense `mask & bit != 0`). -/
structure SparseInv (w h : Int) (g : Grid) : Prop where
  nodup : (keysOf g).Nodup
  keys : ∀ c, c ∈ keysOf g ↔ inBounds w h c
  lt16 : ∀ p ∈ g, p.2 < 16
  mirror : ∀ p ∈ g, 0 ≤ p.2 → ∀ e ∈ exitsList, hasExit p.2 e.2.1 →
    inBounds w h (p.1.1 + e.1.1, p.1.2 + e.1.2) ∧
      hasExit (maskAt g (p.1.1 + e.1.1, p.1.2 + e.1.2)) e.2.2

/-- Mid-round state after processing the snapshot prefix `P` of round
snapshot `g`: keys unchanged; a cell the round has zeroed is non-positive;
any other cell holds its snapshot mask minus the bits the processed dead
ends subtracted from it. -/
def MidInv (g gcur : Grid) (P : List (Cell × Int)) : Prop :=
  keysOf gcur = keysOf g ∧
  ∀ t ∈ keysOf g,
    (zeroedBy P t → maskAt gcur t ≤ 0) ∧
    (¬ zeroedBy P t → maskAt gcur t = maskAt g t - recvSum P t)

/-- C6.  For every grid the generator produces, `sparsify(0)` returns the
dictionary unchanged: no mask changes, no cell is added or removed. -/
theorem c6_sparsify_zero_id (w h : Int) (r : Draws) (fuel : Nat) (g : Grid)
    (hok : generate w h r fuel = .ok g) : sparsify 0 g = g := rfl

/-- Witness for C6 at the concrete 2 by 1 run. -/
theorem c6_witness : sparsify 0 gTwo = gTwo :=
  c6_sparsify_zero_id 2 1 (constDraws (0, 0)) 2 gTwo (by decide)

/-- C9.  For every generated grid and every pass count `k ≥ 0`, running
`sparsify(k)` and then `sparsify(1)` on the result equals running
`sparsify(k+1)` once: the rounds compose, given the fixed per-round
mutation order of the embedding. -/
theorem c9_sparsify_pass_composition (w h : Int) (r : Draws) (fuel : Nat)
    (g : Grid) (k : Int) (hok : generate w h r fuel = .ok g) (hk : 0 ≤ k) :
    sparsify 1 (sparsify k g) = sparsify (k + 1) g := by
  unfold sparsify
  have h1 : (1 : Int).toNat = 1 := rfl
  have h2 : (k + 1).toNat = k.toNat + 1 := by omega
  rw [h1, h2]
  simp only [Function.iterate_one, Function.iterate_succ_apply',
    Function.iterate_zero_apply]

/-- Witness for C9 at the concrete 2 by 1 run with `k = 1`. -/
theorem c9_witness : sparsify 1 (sparsify 1 gTwo) = sparsify 2 gTwo :=
  c9_sparsify_pass_composition 2 1 (constDraws (0, 0)) 2 gTwo 1 (by decide)
    (by decide)

/-- C10.  A negative pass count runs zero pruning rounds: `sparsify(s)` for
`s < 0` leaves any grid unchanged and agrees with `sparsify(0)`. -/
theorem c10_negative_sparseness_noop (g : Grid) (s : Int) (hs : s < 0) :
    sparsify s g = g ∧ sparsify s g = sparsify 0 g := by
  unfold sparsify
  rw [Int.toNat_of_nonpos (le_of_lt hs)]
  exact ⟨rfl, rfl⟩

/-- Witness for C10 at `s = -3` on the concrete 2 by 1 grid. -/
theorem c10_witness :
    sparsify (-3) gTwo = gTwo ∧ sparsify (-3) gTwo = sparsify 0 gTwo :=
  c10_negative_sparseness_noop gTwo (-3) (by decide)

/-- C8.  For non-positive width or height, `generate` signals the invalid
dimensions (the first `randint` raises `ValueError`) before any mutation,
and no visited or unvisited state reaches the caller. -/
theorem c8_invalid_dimensions (w h : Int) (r : Draws) (fuel : Nat)
    (hbad : w ≤ 0 ∨ h ≤ 0) : generate w h r fuel = .invalidDim := by
  unfold generate
  rw [if_pos]
  omega

/-- Witness for C8 at width 0, height 5. -/
theorem c8_witness : generate 0 5 (constDraws (0, 0)) 9 = .invalidDim :=
  c8_invalid_dimensions 0 5 (constDraws (0, 0)) 9 (by decide)

/-- C3 (code bug).  One `sparsify` pass on the generated 2 by 1 grid drives
the mask of cell `(0, 0)` to -4, below the empty mask: the unconditional
`visited[neighbour] += diff` underflows when two dead ends point at each
other, though the claim (and the spec) promise masks stay in 0..15. -/
theorem c3_sparsify_underflows :
    generate 2 1 (constDraws (0, 0)) 2 = .ok gTwo ∧
      maskAt (sparsify 1 gTwo) (0, 0) = -4 := by
  constructor
  · decide
  · decide

/-- C4 (code bug).  On the 2 by 1 maze, generation carves the single
mirrored east-west corridor, but `sparsify(1)` does not send both masks to
0 as the claim states: the snapshot round first prunes `(0, 0)` (zeroing
both masks) and then still processes the stale dead end `(1, 0)`, leaving
masks -4 and 0. -/
theorem c4_two_by_one_scenario :
    generate 2 1 (constDraws (0, 0)) 2 = .ok gTwo ∧
      sparsify 1 gTwo = [((0, 0), -4), ((1, 0), 0)] := by
  constructor
  · decide
  · decide

/-- C2 (code bug).  The mirrored-edge invariant holds on the generated
2 by 1 grid but is broken by one `sparsify` pass: afterwards `(0, 0)` holds
mask -4, whose east bit (in Python, `-4 & 4 != 0`) points at `(1, 0)`,
while `(1, 0)` holds mask 0 with no west bit. -/
theorem c2_mirror_broken_by_sparsify :
    mirrorInv gTwo ∧ ¬ mirrorInv (sparsify 1 gTwo) := by
  constructor
  · intro e he c
    obtain ⟨cx, cy⟩ := c
    simp only [exitsList, List.mem_cons, List.not_mem_nil, or_false] at he
    rcases he with rfl | rfl | rfl | rfl <;>
      · simp only [maskAt, lookupCell, gTwo, hasExit, Prod.mk.injEq]
        split_ifs <;>
          simp only [Option.getD_some, Option.getD_none] <;> omega
  · intro hmi
    have h4 := hmi ((1, 0), 4, 8) (by decide) (0, 0)
    revert h4
    decide

/-! Association-list lemmas for the dictionary operations. -/

lemma lookupCell_append (g1 g2 : Grid) (c : Cell) :
    lookupCell (g1 ++ g2) c =
      match lookupCell g1 c with
      | some v => some v
      | none => lookupCell g2 c := by
  induction g1 with
  | nil => rfl
  | cons p t ih =>
    obtain ⟨d, m⟩ := p
    by_cases h : d = c <;> simp [lookupCell, h, ih]

lemma lookupCell_update (g : Grid) (c : Cell) (v : Int) (d : Cell) :
    lookupCell (updateCell g c v) d =
      if c = d then
        match lookupCell g c with
        | some _ => some v
        | none => none
      else lookupCell g d := by
  induction g with
  | nil => by_cases h : c = d <;> simp [updateCell, lookupCell, h]
  | cons p t ih =>
    obtain ⟨e, m⟩ := p
    by_cases he : e = c
    · subst he
      by_cases hd : e = d
      · subst hd
        simp [updateCell, lookupCell]
      · simp [updateCell, lookupCell, hd]
    · by_cases hd : e = d
      · subst hd
        have hcd : ¬ c = e := fun h => he h.symm
        simp [updateCell, lookupCell, he, hcd]
      · simp [updateCell, lookupCell, he, hd, ih]

lemma keysOf_update (g : Grid) (c : Cell) (v : Int) :
    keysOf (updateCell g c v) = keysOf g := by
  induction g with
  | nil => rfl
  | cons p t ih =>
    obtain ⟨e, m⟩ := p
    by_cases he : e = c
    · simp [updateCell, he, keysOf]
    · simp only [updateCell, if_neg he, keysOf, List.map_cons]
      exact congrArg (List.cons e) ih

lemma keysOf_append (g1 g2 : Grid) :
    keysOf (g1 ++ g2) = keysOf g1 ++ keysOf g2 := List.map_append _ _ _

lemma keysOf_addToCell (g : Grid) (c : Cell) (d : Int) :
    keysOf (addToCell g c d) = keysOf g := by
  unfold addToCell
  cases h : lookupCell g c with
  | none => rfl
  | some v => exact keysOf_update g c (v + d)

lemma keysOf_orCell (g : Grid) (c : Cell) (b : Int) :
    keysOf (orCell g c b) = keysOf g := by
  unfold orCell
  cases h : lookupCell g c with
  | none => rfl
  | some v => exact keysOf_update g c (Int.lor v b)

lemma lookupCell_addToCell (g : Grid) (c : Cell) (d : Int) (e : Cell) :
    lookupCell (addToCell g c d) e =
      if c = e then
        match lookupCell g c with
        | some v => some (v + d)
        | none => none
      else lookupCell g e := by
  unfold addToCell
  cases h : lookupCell g c with
  | none =>
    by_cases hce : c = e
    · subst hce; simp [h]
    · simp [hce]
  | some v =>
    rw [lookupCell_update]
    by_cases hce : c = e
    · subst hce; simp [h]
    · simp [hce]

lemma lookupCell_orCell (g : Grid) (c : Cell) (b : Int) (e : Cell) :
    lookupCell (orCell g c b) e =
      if c = e then
        match lookupCell g c with
        | some v => some (Int.lor v b)
        | none => none
      else lookupCell g e := by
  unfold orCell
  cases h : lookupCell g c with
  | none =>
    by_cases hce : c = e
    · subst hce; simp [h]
    · simp [hce]
  | some v =>
    rw [lookupCell_update]
    by_cases hce : c = e
    · subst hce; simp [h]
    · simp [hce]

lemma lookupCell_isSome_iff (g : Grid) (c : Cell) :
    (lookupCell g c).isSome = true ↔ c ∈ keysOf g := by
  induction g with
  | nil => simp [lookupCell, keysOf]
  | cons p t ih =>
    obtain ⟨d, m⟩ := p
    by_cases h : d = c
    · subst h
      simp [lookupCell, keysOf]
    · simp only [lookupCell, if_neg h, keysOf, List.map_cons, List.mem_cons]
      rw [ih]
      constructor
      · intro hm
        exact Or.inr hm
      · rintro (hcd | hm)
        · exact absurd hcd.symm h
        · exact hm

lemma lookupCell_eq_none_iff (g : Grid) (c : Cell) :
    lookupCell g c = none ↔ c ∉ keysOf g := by
  rw [← lookupCell_isSome_iff]
  cases lookupCell g c <;> simp

lemma lookupCell_mem (g : Grid) (c : Cell) (m : Int)
    (h : lookupCell g c = some m) : (c, m) ∈ g := by
  induction g with
  | nil => simp [lookupCell] at h
  | cons p t ih =>
    obtain ⟨d, v⟩ := p
    by_cases hd : d = c
    · subst hd
      simp [lookupCell] at h
      simp [h]
    · simp [lookupCell, hd] at h
      exact List.mem_cons_of_mem _ (ih h)

lemma mem_lookupCell_of_nodup (g : Grid) (c : Cell) (m : Int)
    (hnd : (keysOf g).Nodup) (h : (c, m) ∈ g) : lookupCell g c = some m := by
  induction g with
  | nil => simp at h
  | cons p t ih =>
    obtain ⟨d, v⟩ := p
    have hnd2 := List.nodup_cons.mp hnd
    rcases List.mem_cons.mp h with heq | ht
    · cases heq
      simp [lookupCell]
    · have hdc : d ≠ c := by
        intro hdc
        apply hnd2.1
        rw [hdc]
        exact List.mem_map.mpr ⟨(c, m), ht, rfl⟩
      simp [lookupCell, hdc]
      exact ih hnd2.2 ht

lemma mem_of_maskAt_of_key (g : Grid) (c : Cell) (h : c ∈ keysOf g) :
    (c, maskAt g c) ∈ g := by
  have hs := (lookupCell_isSome_iff g c).mpr h
  cases hl : lookupCell g c with
  | none => rw [hl] at hs; simp at hs
  | some v =>
    have : maskAt g c = v := by simp [maskAt, hl]
    rw [this]
    exact lookupCell_mem g c v hl

lemma removeCell_eq_erase (l : List Cell) (c : Cell) :
    removeCell l c = l.erase c := by
  induction l with
  | nil => rfl
  | cons d t ih =>
    by_cases h : d = c
    · simp [removeCell, h, List.erase_cons_head]
    · rw [List.erase_cons_tail]
      · simp [removeCell, h, ih]
      · simp [h]

lemma bitSum_append (g1 g2 : Grid) :
    bitSum (g1 ++ g2) = bitSum g1 + bitSum g2 := by
  unfold bitSum
  rw [List.map_append, List.sum_append]

lemma bitSum_update (g : Grid) (c : Cell) (v m : Int)
    (h : lookupCell g c = some m) :
    bitSum (updateCell g c v) + popcnt m = bitSum g + popcnt v := by
  induction g with
  | nil => simp [lookupCell] at h
  | cons p t ih =>
    obtain ⟨d, mv⟩ := p
    by_cases hd : d = c
    · subst hd
      simp [lookupCell] at h
      subst h
      simp [updateCell, bitSum]
      omega
    · simp [lookupCell, hd] at h
      have := ih h
      simp [updateCell, hd, bitSum] at this ⊢
      omega

/-! Lemmas about the cell enumeration and the exits table. -/

lemma mem_allCells (w h : Int) (c : Cell) :
    c ∈ allCells w h ↔ inBounds w h c := by
  obtain ⟨cx, cy⟩ := c
  unfold allCells inBounds
  constructor
  · intro hm
    rw [List.mem_flatMap] at hm
    obtain ⟨y, hy, hm2⟩ := hm
    rw [List.mem_map] at hm2
    obtain ⟨x, hx, heq⟩ := hm2
    rw [List.mem_range] at hy hx
    rw [Prod.mk.injEq] at heq
    omega
  · intro hb
    rw [List.mem_flatMap]
    refine ⟨cy.toNat, by rw [List.mem_range]; omega, ?_⟩
    rw [List.mem_map]
    refine ⟨cx.toNat, by rw [List.mem_range]; omega, ?_⟩
    rw [Prod.mk.injEq]
    omega

lemma allCells_nodup (w h : Int) : (allCells w h).Nodup := by
  unfold allCells
  rw [List.nodup_flatMap]
  constructor
  · intro y hy
    exact (List.nodup_range _).map (fun a b hab => by
      rw [Prod.mk.injEq] at hab
      omega)
  · have := List.pairwise_lt_range h.toNat
    refine this.imp ?_
    intro y1 y2 hlt
    intro c hc1 hc2
    rw [List.mem_map] at hc1 hc2
    obtain ⟨x1, _, he1⟩ := hc1
    obtain ⟨x2, _, he2⟩ := hc2
    rw [← he2, Prod.mk.injEq] at he1
    omega

lemma sum_map_const_range (n c : Nat) :
    ((List.range n).map fun _ => c).sum = n * c := by
  induction n with
  | zero => simp
  | succ k ih =>
    rw [List.range_succ, List.map_append, List.sum_append, ih]
    simp [Nat.succ_mul]

lemma allCells_length (w h : Int) :
    (allCells w h).length = w.toNat * h.toNat := by
  unfold allCells
  rw [List.length_flatMap]
  have hmap : ∀ y ∈ List.range h.toNat,
      (List.length ∘ fun (y : Nat) =>
        (List.range w.toNat).map fun (x : Nat) => ((x : Int), (y : Int))) y
        = w.toNat := by
    intro y _
    simp
  rw [List.map_congr_left hmap, sum_map_const_range]
  exact mul_comm _ _

lemma mem_exits_iff (e : (Int × Int) × Int × Int) :
    e ∈ exitsList ↔
      e = ((0, 1), 1, 2) ∨ e = ((0, -1), 2, 1) ∨
        e = ((1, 0), 4, 8) ∨ e = ((-1, 0), 8, 4) := by
  simp [exitsList]

lemma exits_facts : ∀ e ∈ exitsList,
    (0 : Int) ≤ e.2.2 ∧ e.2.2 < 16 ∧ popcnt e.2.2 = 1 ∧ hasExit e.2.2 e.2.2 ∧
      ((-e.1.1, -e.1.2), e.2.2, e.2.1) ∈ exitsList := by decide

lemma exits_your_bits : ∀ e ∈ exitsList, ∀ f ∈ exitsList,
    (hasExit e.2.2 f.2.1 ↔ f.2.1 = e.2.2) := by decide

lemma exits_distinct : ∀ e ∈ exitsList, ∀ f ∈ exitsList, e ≠ f →
    e.1 ≠ f.1 ∧ e.2.1 ≠ f.2.1 ∧ e.2.2 ≠ f.2.2 := by decide

lemma hasExit_zero : ∀ e ∈ exitsList, ¬ hasExit 0 e.2.1 := by decide

lemma popcnt_zero : popcnt 0 = 0 := by decide

lemma lor_mask_nat : ∀ n : Nat, n < 16 → ∀ e ∈ exitsList,
    0 ≤ Int.lor (n : Int) e.2.1 ∧ Int.lor (n : Int) e.2.1 < 16 ∧
      (∀ f ∈ exitsList, (hasExit (Int.lor (n : Int) e.2.1) f.2.1 ↔
        (hasExit (n : Int) f.2.1 ∨ f.2.1 = e.2.1))) ∧
      (¬ hasExit (n : Int) e.2.1 →
        popcnt (Int.lor (n : Int) e.2.1) = popcnt (n : Int) + 1) := by decide

lemma lor_mask (m : Int) (hm0 : 0 ≤ m) (hm : m < 16)
    (e : (Int × Int) × Int × Int) (he : e ∈ exitsList) :
    0 ≤ Int.lor m e.2.1 ∧ Int.lor m e.2.1 < 16 ∧
      (∀ f ∈ exitsList, (hasExit (Int.lor m e.2.1) f.2.1 ↔
        (hasExit m f.2.1 ∨ f.2.1 = e.2.1))) ∧
      (¬ hasExit m e.2.1 → popcnt (Int.lor m e.2.1) = popcnt m + 1) := by
  have hm2 : m = ((m.toNat : Nat) : Int) := (Int.toNat_of_nonneg hm0).symm
  rw [hm2]
  exact lor_mask_nat m.toNat (by omega) e he

lemma single_corridor_exits :
    ∀ e ∈ exitsList, single_corridor e.2.1 = some (e.1, -e.2.2) := by decide

lemma single_corridor_eq_some (m : Int) (x : (Int × Int) × Int)
    (h : single_corridor m = some x) :
    ∃ e ∈ exitsList, m = e.2.1 ∧ x = (e.1, -e.2.2) := by
  unfold single_corridor at h
  split_ifs at h with h1 h2 h3 h4
  · exact ⟨((0, 1), 1, 2), by decide, h1, by cases h; rfl⟩
  · exact ⟨((0, -1), 2, 1), by decide, h2, by cases h; rfl⟩
  · exact ⟨((1, 0), 4, 8), by decide, h3, by cases h; rfl⟩
  · exact ⟨((-1, 0), 8, 4), by decide, h4, by cases h; rfl⟩

/-! Graph lemmas: adding a single edge to a previously isolated vertex
preserves acyclicity. -/

lemma addLeaf_acyclic {V : Type} [DecidableEq V] {G G2 : SimpleGraph V}
    (hG : G.IsAcyclic)
    {cur n : V} (hiso : ∀ u, ¬ G.Adj n u)
    (hAdj : ∀ x y, G2.Adj x y ↔
      (G.Adj x y ∨ (x = cur ∧ y = n) ∨ (x = n ∧ y = cur))) :
    G2.IsAcyclic := by
  have hnc : n ≠ cur := by
    intro he
    subst he
    exact G2.loopless n ((hAdj n n).mpr (Or.inr (Or.inl ⟨rfl, rfl⟩)))
  have adj_n : ∀ b, G2.Adj n b → b = cur := by
    intro b hb
    rcases (hAdj n b).mp hb with hg | ⟨h1, _⟩ | ⟨_, h2⟩
    · exact absurd hg (hiso b)
    · exact absurd h1 hnc
    · exact h2
  intro v c hc
  by_cases hn : n ∈ c.support
  · have hc2 := hc.rotate hn
    cases c2case : c.rotate hn with
    | nil =>
      rw [c2case] at hc2
      exact hc2.toIsCircuit.ne_nil rfl
    | cons hadj p =>
      rw [c2case] at hc2
      have hbcur := (adj_n _ hadj).symm
      subst hbcur
      cases hr : p.reverse with
      | nil =>
        have : p.length = 0 := by
          have := congrArg SimpleGraph.Walk.length hr
          simpa using this
        have hpn := SimpleGraph.Walk.eq_of_length_eq_zero this
        exact hnc hpn.symm
      | cons hadj2 q =>
        have hb2 := (adj_n _ hadj2).symm
        subst hb2
        have hmem : s(n, cur) ∈ p.edges := by
          have h1 : s(n, cur) ∈ p.reverse.edges := by
            rw [hr, SimpleGraph.Walk.edges_cons]
            exact List.mem_cons_self _ _
          rw [SimpleGraph.Walk.edges_reverse] at h1
          exact List.mem_reverse.mp h1
        have hnd := hc2.toIsCircuit.toIsTrail.edges_nodup
        rw [SimpleGraph.Walk.edges_cons] at hnd
        exact (List.nodup_cons.mp hnd).1 hmem
  · have hsub : ∀ e ∈ c.edges, e ∈ G.edgeSet := by
      intro e he
      have he2 := c.edges_subset_edgeSet he
      induction e using Sym2.inductionOn with
      | hf a b =>
        rw [SimpleGraph.mem_edgeSet] at he2 ⊢
        rcases (hAdj a b).mp he2 with hg | ⟨h1, h2⟩ | ⟨h1, h2⟩
        · exact hg
        · subst h2
          exact absurd (SimpleGraph.Walk.snd_mem_support_of_mem_edges c he) hn
        · subst h1
          exact absurd (SimpleGraph.Walk.fst_mem_support_of_mem_edges c he) hn
    exact hG (c.transfer G hsub) (hc.transfer hsub)

/-! Lemmas about the neighbour scan and the carving update. -/

lemma findNeighbour_some (unv : List Cell) (c : Cell)
    (l : List ((Int × Int) × Int × Int)) (n : Cell) (my your : Int)
    (h : findNeighbour unv c l = some (n, my, your)) :
    n ∈ unv ∧ ∃ d, (d, my, your) ∈ l ∧ n = (c.1 + d.1, c.2 + d.2) := by
  induction l with
  | nil => simp [findNeighbour] at h
  | cons e rest ih =>
    obtain ⟨d0, my0, your0⟩ := e
    unfold findNeighbour at h
    by_cases hm : (c.1 + d0.1, c.2 + d0.2) ∈ unv
    · rw [if_pos hm] at h
      injection h with h
      injection h with h1 h23
      injection h23 with h2 h3
      subst h2; subst h3
      exact ⟨h1 ▸ hm, d0, List.mem_cons_self _ _, h1.symm⟩
    · rw [if_neg hm] at h
      obtain ⟨hu, d, hd, he⟩ := ih h
      exact ⟨hu, d, List.mem_cons_of_mem _ hd, he⟩

lemma findNeighbour_none (unv : List Cell) (c : Cell)
    (l : List ((Int × Int) × Int × Int)) (h : findNeighbour unv c l = none) :
    ∀ d my your, (d, my, your) ∈ l → (c.1 + d.1, c.2 + d.2) ∉ unv := by
  induction l with
  | nil => intro d my your hd; simp at hd
  | cons e rest ih =>
    obtain ⟨d0, my0, your0⟩ := e
    unfold findNeighbour at h
    by_cases hm : (c.1 + d0.1, c.2 + d0.2) ∈ unv
    · rw [if_pos hm] at h; cases h
    · rw [if_neg hm] at h
      intro d my your hd
      rcases List.mem_cons.mp hd with heq | ht
      · injection heq with hd2 hrest
        injection hrest with hmy hyour
        subst hd2
        exact hm
      · exact ih h d my your ht

lemma findNeighbour_isSome (unv : List Cell) (c : Cell)
    (l : List ((Int × Int) × Int × Int)) (d : Int × Int) (my your : Int)
    (hd : (d, my, your) ∈ l) (hm : (c.1 + d.1, c.2 + d.2) ∈ unv) :
    (findNeighbour unv c l).isSome = true := by
  cases hf : findNeighbour unv c l with
  | some v => rfl
  | none => exact absurd hm (findNeighbour_none unv c l hf d my your hd)

lemma lookup_carve (g : Grid) (cur n : Cell) (my your m : Int)
    (hm : lookupCell g cur = some m) (hn : n ∉ keysOf g) (c : Cell) :
    lookupCell (orCell g cur my ++ [(n, your)]) c =
      if cur = c then some (Int.lor m my)
      else if n = c then some your
      else lookupCell g c := by
  rw [lookupCell_append, lookupCell_orCell]
  by_cases h1 : cur = c
  · subst h1; simp [hm]
  · rw [if_neg h1, if_neg h1]
    by_cases h2 : n = c
    · subst h2
      rw [(lookupCell_eq_none_iff g n).mpr hn]
      simp [lookupCell]
    · rw [if_neg h2]
      cases hl : lookupCell g c with
      | none => simp [lookupCell, h2]
      | some v => simp

lemma genInv_nodup {w h : Int} {s : GenState} (hinv : GenInv w h s) :
    (keysOf s.visited).Nodup ∧ s.unvisited.Nodup ∧
      ∀ c ∈ keysOf s.visited, c ∉ s.unvisited := by
  have hnd : (keysOf s.visited ++ s.unvisited).Nodup :=
    hinv.part.nodup_iff.mpr (allCells_nodup w h)
  obtain ⟨h1, h2, h3⟩ := List.nodup_append.mp hnd
  exact ⟨h1, h2, fun c hc hcu => h3 hc hcu⟩

lemma genInv_keys_inBounds {w h : Int} {s : GenState} (hinv : GenInv w h s) :
    ∀ c, c ∈ keysOf s.visited ∨ c ∈ s.unvisited → inBounds w h c := by
  intro c hc
  have : c ∈ keysOf s.visited ++ s.unvisited := List.mem_append.mpr hc
  exact (mem_allCells w h c).mp (hinv.part.mem_iff.mp this)

lemma maskAt_of_lookup {g : Grid} {c : Cell} {m : Int}
    (h : lookupCell g c = some m) : maskAt g c = m := by
  simp [maskAt, h]

lemma maskAt_of_not_key {g : Grid} {c : Cell} (h : c ∉ keysOf g) :
    maskAt g c = 0 := by
  simp [maskAt, (lookupCell_eq_none_iff g c).mpr h]

lemma exits_my_unique : ∀ e ∈ exitsList, ∀ f ∈ exitsList,
    e.2.1 = f.2.1 → e = f := by decide

lemma length_updateCell (g : Grid) (c : Cell) (v : Int) :
    (updateCell g c v).length = g.length := by
  induction g with
  | nil => rfl
  | cons p t ih =>
    obtain ⟨d, m⟩ := p
    by_cases hd : d = c <;> simp [updateCell, hd, ih]

lemma length_orCell (g : Grid) (c : Cell) (b : Int) :
    (orCell g c b).length = g.length := by
  unfold orCell
  cases hl : lookupCell g c with
  | none => rfl
  | some v => exact length_updateCell g c _

lemma bitSum_orCell (g : Grid) (c : Cell) (b m : Int)
    (hm : lookupCell g c = some m) :
    bitSum (orCell g c b) + popcnt m = bitSum g + popcnt (Int.lor m b) := by
  unfold orCell
  rw [hm]
  exact bitSum_update g c _ m hm

lemma cur_ne_new {g : Grid} {cur n : Cell} {m : Int}
    (hm : lookupCell g cur = some m) (hnk : n ∉ keysOf g) : cur ≠ n := by
  intro he
  subst he
  exact hnk ((lookupCell_isSome_iff g cur).mp (by simp [hm]))

lemma exitToward_carve {w h : Int} (g : Grid) (cur : Cell)
    (e : (Int × Int) × Int × Int) (he : e ∈ exitsList) (m : Int)
    (hm : lookupCell g cur = some m) (hm0 : 0 ≤ m) (hm16 : m < 16)
    (hnk : (cur.1 + e.1.1, cur.2 + e.1.2) ∉ keysOf g)
    (hclos : ∀ p ∈ g, ∀ f ∈ exitsList, hasExit p.2 f.2.1 →
      ∃ m2, lookupCell g (p.1.1 + f.1.1, p.1.2 + f.1.2) = some m2 ∧
        hasExit m2 f.2.2)
    (a b : Cell) :
    exitToward (orCell g cur e.2.1 ++
        [((cur.1 + e.1.1, cur.2 + e.1.2), e.2.2)]) a b ↔
      (exitToward g a b ∨
        (a = cur ∧ b = (cur.1 + e.1.1, cur.2 + e.1.2)) ∨
        (a = (cur.1 + e.1.1, cur.2 + e.1.2) ∧ b = cur)) := by
  set n : Cell := (cur.1 + e.1.1, cur.2 + e.1.2) with hn
  have hcn : cur ≠ n := cur_ne_new hm hnk
  have hlook := lookup_carve g cur n e.2.1 e.2.2 m hm hnk
  have hlor := lor_mask m hm0 hm16 e he
  have hme := (exits_facts e he).2.2.2.2
  constructor
  · rintro ⟨f, hf, hb, hbit⟩
    by_cases hac : a = cur
    · subst hac
      have hmask : maskAt (orCell g a e.2.1 ++ [(n, e.2.2)]) a = Int.lor m e.2.1 := by
        rw [maskAt_of_lookup]
        rw [hlook a, if_pos rfl]
      rw [hmask] at hbit
      rcases (hlor.2.2.1 f hf).mp hbit with hold | hnew
      · exact Or.inl ⟨f, hf, hb, by rw [maskAt_of_lookup hm]; exact hold⟩
      · have hfe : f = e := exits_my_unique f hf e he hnew
        subst hfe
        exact Or.inr (Or.inl ⟨rfl, hb⟩)
    · by_cases han : a = n
      · have hmask : maskAt (orCell g cur e.2.1 ++ [(n, e.2.2)]) a = e.2.2 := by
          rw [maskAt_of_lookup]
          rw [hlook a, if_neg (fun hx => hcn (hx.trans han)), if_pos han.symm]
        rw [hmask] at hbit
        have hfy : f.2.1 = e.2.2 := (exits_your_bits e he f hf).mp hbit
        have hfme : f = ((-e.1.1, -e.1.2), e.2.2, e.2.1) := by
          apply exits_my_unique f hf _ hme
          exact hfy
        subst hfme
        refine Or.inr (Or.inr ⟨han, ?_⟩)
        rw [hb, han, hn]
        apply Prod.ext <;> simp <;> omega
      · have hmask : maskAt (orCell g cur e.2.1 ++ [(n, e.2.2)]) a = maskAt g a := by
          unfold maskAt
          rw [hlook a, if_neg (fun hx => hac hx.symm), if_neg (fun hx => han hx.symm)]
        rw [hmask] at hbit
        exact Or.inl ⟨f, hf, hb, hbit⟩
  · intro hcase
    rcases hcase with ⟨f, hf, hb, hbit⟩ | ⟨ha, hb⟩ | ⟨ha, hb⟩
    · by_cases hac : a = cur
      · refine ⟨f, hf, hb, ?_⟩
        have hmask : maskAt (orCell g cur e.2.1 ++ [(n, e.2.2)]) a
            = Int.lor m e.2.1 := by
          rw [maskAt_of_lookup]
          rw [hlook a, if_pos hac.symm]
        rw [hmask]
        rw [hac, maskAt_of_lookup hm] at hbit
        exact (hlor.2.2.1 f hf).mpr (Or.inl hbit)
      · by_cases han : a = n
        · subst han
          rw [maskAt_of_not_key hnk] at hbit
          exact absurd hbit (hasExit_zero f hf)
        · refine ⟨f, hf, hb, ?_⟩
          have hmask : maskAt (orCell g cur e.2.1 ++ [(n, e.2.2)]) a = maskAt g a := by
            unfold maskAt
            rw [hlook a, if_neg (fun hx => hac hx.symm), if_neg (fun hx => han hx.symm)]
          rw [hmask]
          exact hbit
    · refine ⟨e, he, ?_, ?_⟩
      · rw [hb, ha, hn]
      · have hmask : maskAt (orCell g cur e.2.1 ++ [(n, e.2.2)]) a
            = Int.lor m e.2.1 := by
          rw [maskAt_of_lookup]
          rw [hlook a, if_pos ha.symm]
        rw [hmask]
        exact (hlor.2.2.1 e he).mpr (Or.inr rfl)
    · refine ⟨((-e.1.1, -e.1.2), e.2.2, e.2.1), hme, ?_, ?_⟩
      · rw [hb, ha, hn]
        apply Prod.ext <;> simp <;> omega
      · have hmask : maskAt (orCell g cur e.2.1 ++ [(n, e.2.2)]) a = e.2.2 := by
          rw [maskAt_of_lookup]
          rw [hlook a, if_neg (fun hx => hcn (hx.trans ha)), if_pos ha.symm]
        rw [hmask]
        exact (exits_facts e he).2.2.2.1

lemma exits_delta_unique : ∀ e ∈ exitsList, ∀ f ∈ exitsList,
    e.1 = f.1 → e = f := by decide

lemma removeCell_perm (l : List Cell) (c : Cell) (h : c ∈ l) :
    l.Perm (c :: removeCell l c) := by
  induction l with
  | nil => simp at h
  | cons d t ih =>
    by_cases hd : d = c
    · subst hd
      simp [removeCell]
    · have hct : c ∈ t := by
        rcases List.mem_cons.mp h with h1 | h1
        · exact absurd h1.symm hd
        · exact h1
      have hstep : removeCell (d :: t) c = d :: removeCell t c := by
        simp [removeCell, hd]
      rw [hstep]
      exact ((ih hct).cons d).trans (List.Perm.swap c d (removeCell t c))

lemma removeCell_length (l : List Cell) (c : Cell) (h : c ∈ l) :
    (removeCell l c).length + 1 = l.length := by
  have := (removeCell_perm l c h).length_eq
  simp at this
  omega

lemma neg_delta_helper (a b c p : Int) (h1 : p + a = c) (h2 : p = c + b) :
    a = -b := by omega

lemma carve_inv {w h : Int} {s : GenState} (hinv : GenInv w h s)
    (e : (Int × Int) × Int × Int) (he : e ∈ exitsList)
    (hn : (s.current.1 + e.1.1, s.current.2 + e.1.2) ∈ s.unvisited)
    (ci pi : Nat) :
    GenInv w h
      { mode := Mode.walk,
        unvisited :=
          removeCell s.unvisited (s.current.1 + e.1.1, s.current.2 + e.1.2),
        visited := orCell s.visited s.current e.2.1 ++
          [((s.current.1 + e.1.1, s.current.2 + e.1.2), e.2.2)],
        current := (s.current.1 + e.1.1, s.current.2 + e.1.2),
        ci := ci, pi := pi } := by
  obtain ⟨hndk, hndu, hdisj⟩ := genInv_nodup hinv
  set g := s.visited with hgdef
  set cur := s.current with hcurdef
  set n : Cell := (cur.1 + e.1.1, cur.2 + e.1.2) with hndef
  have hnk : n ∉ keysOf g := fun hk => hdisj n hk hn
  obtain ⟨m, hm⟩ : ∃ m, lookupCell g cur = some m := by
    have hsome := (lookupCell_isSome_iff g cur).mpr hinv.curKey
    cases hl : lookupCell g cur with
    | none => rw [hl] at hsome; simp at hsome
    | some v => exact ⟨v, rfl⟩
  have hmem : (cur, m) ∈ g := lookupCell_mem g cur m hm
  have hm016 := hinv.range _ hmem
  have hcn : cur ≠ n := cur_ne_new hm hnk
  have hmybit : ¬ hasExit m e.2.1 := by
    intro hbit
    obtain ⟨m2, hl2, _⟩ := hinv.closure _ hmem e he hbit
    exact hnk ((lookupCell_isSome_iff g n).mp (by rw [← hndef] at hl2; simp [hl2]))
  have hlor := lor_mask m hm016.1 hm016.2 e he
  have hlook := lookup_carve g cur n e.2.1 e.2.2 m hm hnk
  have hme := (exits_facts e he).2.2.2.2
  set g2 : Grid := orCell g cur e.2.1 ++ [(n, e.2.2)] with hg2
  have hkeys2 : keysOf g2 = keysOf g ++ [n] := by
    rw [hg2, keysOf_append, keysOf_orCell]
    rfl
  have hpart2 : (keysOf g2 ++ removeCell s.unvisited n).Perm (allCells w h) := by
    rw [hkeys2, List.append_assoc]
    refine List.Perm.trans ?_ hinv.part
    refine List.Perm.append_left (keysOf g) ?_
    rw [List.singleton_append]
    exact (removeCell_perm s.unvisited n hn).symm
  have hnod2 : (keysOf g2).Nodup :=
    (List.nodup_append.mp (hpart2.nodup_iff.mpr (allCells_nodup w h))).1
  have hcarve := fun a b => exitToward_carve (w := w) (h := h) g cur e he m hm
    hm016.1 hm016.2 hnk hinv.closure a b
  have hbc : inBounds w h cur := genInv_keys_inBounds hinv cur (Or.inl hinv.curKey)
  have hbn : inBounds w h n := genInv_keys_inBounds hinv n (Or.inr hn)
  have hAdjV : ∀ x y : GridCell w h, (mazeGraph w h g2).Adj x y ↔
      ((mazeGraph w h g).Adj x y ∨ (x = (⟨cur, hbc⟩ : GridCell w h) ∧
        y = (⟨n, hbn⟩ : GridCell w h)) ∨
        (x = (⟨n, hbn⟩ : GridCell w h) ∧ y = (⟨cur, hbc⟩ : GridCell w h))) := by
    intro x y
    show (exitToward g2 x.1 y.1 ∨ exitToward g2 y.1 x.1) ↔ _
    rw [hcarve x.1 y.1, hcarve y.1 x.1]
    have hx1 : (x = (⟨cur, hbc⟩ : GridCell w h)) ↔ x.1 = cur := Subtype.ext_iff
    have hx2 : (x = (⟨n, hbn⟩ : GridCell w h)) ↔ x.1 = n := Subtype.ext_iff
    have hy1 : (y = (⟨cur, hbc⟩ : GridCell w h)) ↔ y.1 = cur := Subtype.ext_iff
    have hy2 : (y = (⟨n, hbn⟩ : GridCell w h)) ↔ y.1 = n := Subtype.ext_iff
    rw [hx1, hx2, hy1, hy2]
    constructor
    · rintro ((hA | hP | hQ) | (hB | hQ2 | hP2))
      · exact Or.inl (Or.inl hA)
      · exact Or.inr (Or.inl hP)
      · exact Or.inr (Or.inr hQ)
      · exact Or.inl (Or.inr hB)
      · exact Or.inr (Or.inr ⟨hQ2.2, hQ2.1⟩)
      · exact Or.inr (Or.inl ⟨hP2.2, hP2.1⟩)
    · rintro ((hA | hB) | hP | hQ)
      · exact Or.inl (Or.inl hA)
      · exact Or.inr (Or.inl hB)
      · exact Or.inl (Or.inr (Or.inl hP))
      · exact Or.inl (Or.inr (Or.inr hQ))
  have hiso : ∀ u : GridCell w h, ¬ (mazeGraph w h g).Adj ⟨n, hbn⟩ u := by
    rintro u (⟨f, hf, hb, hbit⟩ | ⟨f, hf, hb, hbit⟩)
    · rw [maskAt_of_not_key hnk] at hbit
      exact hasExit_zero f hf hbit
    · by_cases hu : u.1 ∈ keysOf g
      · obtain ⟨m2, hl2, _⟩ :=
          hinv.closure _ (mem_of_maskAt_of_key g u.1 hu) f hf hbit
        rw [← hb] at hl2
        exact hnk ((lookupCell_isSome_iff g n).mp (by simp [hl2]))
      · rw [maskAt_of_not_key hu] at hbit
        exact hasExit_zero f hf hbit
  have hle : mazeGraph w h g ≤ mazeGraph w h g2 := by
    intro x y hxy
    exact (hAdjV x y).mpr (Or.inl hxy)
  refine ⟨hpart2, ?_, ?_, ?_, ?_, ?_, ?_⟩
  · show n ∈ keysOf g2
    rw [hkeys2]
    exact List.mem_append.mpr (Or.inr (List.mem_singleton.mpr rfl))
  · -- range
    intro p hp
    have hlp : lookupCell g2 p.1 = some p.2 :=
      mem_lookupCell_of_nodup g2 p.1 p.2 hnod2 (by rw [Prod.mk.eta]; exact hp)
    rw [hlook p.1] at hlp
    split_ifs at hlp with h1 h2
    · injection hlp with hv
      rw [← hv]
      exact ⟨hlor.1, hlor.2.1⟩
    · injection hlp with hv
      rw [← hv]
      have hef := exits_facts e he
      exact ⟨hef.1, hef.2.1⟩
    · exact hinv.range _ (lookupCell_mem g p.1 p.2 hlp)
  · -- closure
    intro p hp f hf hbit
    set b : Cell := (p.1.1 + f.1.1, p.1.2 + f.1.2) with hbdef
    have hlp : lookupCell g2 p.1 = some p.2 :=
      mem_lookupCell_of_nodup g2 p.1 p.2 hnod2 (by rw [Prod.mk.eta]; exact hp)
    have hmask2 : maskAt g2 p.1 = p.2 := maskAt_of_lookup hlp
    have hex : exitToward g2 p.1 b := ⟨f, hf, hbdef, by rw [hmask2]; exact hbit⟩
    rcases (hcarve p.1 b).mp hex with hold | ⟨hpc, hbn2⟩ | ⟨hpn, hbc2⟩
    · obtain ⟨f2, hf2, hb2, hbit2⟩ := hold
      have hff : f2 = f := by
        apply exits_delta_unique f2 hf2 f hf
        have : (p.1.1 + f2.1.1, p.1.2 + f2.1.2) = (p.1.1 + f.1.1, p.1.2 + f.1.2) := by
          rw [← hb2, hbdef]
        rw [Prod.mk.injEq] at this
        apply Prod.ext <;> omega
      rw [hff] at hbit2
      have hpkey : p.1 ∈ keysOf g := by
        by_contra hpk
        rw [maskAt_of_not_key hpk] at hbit2
        exact hasExit_zero f hf hbit2
      obtain ⟨m2, hl2, hbit3⟩ :=
        hinv.closure _ (mem_of_maskAt_of_key g p.1 hpkey) f hf hbit2
      rw [← hbdef] at hl2
      by_cases hbcur : cur = b
      · have hm2m : m2 = m := by
          rw [← hbcur] at hl2
          rw [hm] at hl2
          exact (Option.some.inj hl2).symm
        refine ⟨Int.lor m e.2.1, ?_, ?_⟩
        · rw [hlook b, if_pos hbcur]
        · have hmf : ((-f.1.1, -f.1.2), f.2.2, f.2.1) ∈ exitsList :=
            (exits_facts f hf).2.2.2.2
          have := (hlor.2.2.1 _ hmf).mpr (Or.inl (by rw [← hm2m]; exact hbit3))
          exact this
      · by_cases hbnn : n = b
        · exfalso
          rw [← hbnn] at hl2
          exact hnk ((lookupCell_isSome_iff g n).mp (by simp [hl2]))
        · refine ⟨m2, ?_, hbit3⟩
          rw [hlook b, if_neg hbcur, if_neg hbnn]
          exact hl2
    · -- p is the current cell and the bit is the newly carved one
      have hfe : f = e := by
        apply exits_delta_unique f hf e he
        have h3 := hbdef.symm.trans (hbn2.trans hndef)
        rw [Prod.mk.injEq] at h3
        have h4 : p.1.1 = cur.1 ∧ p.1.2 = cur.2 := by
          rw [hpc]
          exact ⟨rfl, rfl⟩
        apply Prod.ext <;> omega
      refine ⟨e.2.2, ?_, ?_⟩
      · rw [hlook b, if_neg (fun hx => hcn (hx.trans hbn2)), if_pos hbn2.symm]
      · rw [hfe]
        exact (exits_facts e he).2.2.2.1
    · -- p is the new cell and the bit points back at the current cell
      have hfm : f = ((-e.1.1, -e.1.2), e.2.2, e.2.1) := by
        apply exits_delta_unique f hf _ hme
        have h1 := hbdef.symm.trans hbc2
        rw [Prod.mk.injEq] at h1
        have h3 : p.1.1 = cur.1 + e.1.1 ∧ p.1.2 = cur.2 + e.1.2 := by
          rw [hpn.trans hndef]
          exact ⟨rfl, rfl⟩
        refine Prod.ext ?_ ?_
        · show f.1.1 = -e.1.1
          exact neg_delta_helper _ _ _ _ h1.1 h3.1
        · show f.1.2 = -e.1.2
          exact neg_delta_helper _ _ _ _ h1.2 h3.2
      refine ⟨Int.lor m e.2.1, ?_, ?_⟩
      · rw [hlook b, if_pos hbc2.symm]
      · rw [hfm]
        exact (hlor.2.2.1 e he).mpr (Or.inr rfl)
  · -- count
    show bitSum g2 + 2 = 2 * g2.length
    have h1 : bitSum g2 = bitSum (orCell g cur e.2.1) + popcnt e.2.2 := by
      rw [hg2, bitSum_append]
      simp [bitSum]
    have h2 := bitSum_orCell g cur e.2.1 m hm
    have h3 : popcnt (Int.lor m e.2.1) = popcnt m + 1 := hlor.2.2.2 hmybit
    have h4 : popcnt e.2.2 = 1 := (exits_facts e he).2.2.1
    have h5 : g2.length = g.length + 1 := by
      rw [hg2, List.length_append, length_orCell]
      rfl
    have h6 : bitSum g + 2 = 2 * g.length := hinv.count
    omega
  · -- reach
    intro a b ha hb
    rw [hkeys2] at ha hb
    have hreachn : ∀ x : GridCell w h, x.1 ∈ keysOf g →
        (mazeGraph w h g2).Reachable x ⟨n, hbn⟩ := by
      intro x hx
      refine SimpleGraph.Reachable.trans
        ((hinv.reach x ⟨cur, hbc⟩ hx hinv.curKey).mono hle) ?_
      exact SimpleGraph.Adj.reachable
        ((hAdjV _ _).mpr (Or.inr (Or.inl ⟨rfl, rfl⟩)))
    rcases List.mem_append.mp ha with ha2 | ha2 <;>
      rcases List.mem_append.mp hb with hb2 | hb2
    · exact (hinv.reach a b ha2 hb2).mono hle
    · have hbn2 : b = ⟨n, hbn⟩ := Subtype.ext (List.mem_singleton.mp hb2)
      rw [hbn2]
      exact hreachn a ha2
    · have han2 : a = ⟨n, hbn⟩ := Subtype.ext (List.mem_singleton.mp ha2)
      rw [han2]
      exact (hreachn b hb2).symm
    · have han2 : a = ⟨n, hbn⟩ := Subtype.ext (List.mem_singleton.mp ha2)
      have hbn2 : b = ⟨n, hbn⟩ := Subtype.ext (List.mem_singleton.mp hb2)
      rw [han2, hbn2]
  · -- acyclic
    exact addLeaf_acyclic hinv.acyclic hiso hAdjV

lemma genStep_inr {r : Draws} {s : GenState} {g : Grid}
    (hstep : genStep r s = Sum.inr g) : s.unvisited = [] ∧ g = s.visited := by
  obtain ⟨mo, unv, vis, cur, ci, pi⟩ := s
  cases mo with
  | walk =>
    simp only [genStep] at hstep
    split at hstep
    · refine ⟨by assumption, ?_⟩
      injection hstep with hg
      exact hg.symm
    · split at hstep <;> cases hstep
  | reject =>
    simp only [genStep] at hstep
    split at hstep <;> cases hstep

theorem genInv_step {w h : Int} {r : Draws} (hr : validDraws w h r)
    {s t : GenState} (hinv : GenInv w h s) (hstep : genStep r s = Sum.inl t) :
    GenInv w h t := by
  obtain ⟨mo, unv, vis, cur, ci, pi⟩ := s
  cases mo with
  | walk =>
    simp only [genStep] at hstep
    split at hstep
    · cases hstep
    · rename_i hne
      cases hfn : findNeighbour unv cur (r.perms pi) with
      | some v =>
        obtain ⟨n, my, your⟩ := v
        rw [hfn] at hstep
        injection hstep with ht
        subst ht
        obtain ⟨hnu, d, hd, hne2⟩ := findNeighbour_some _ _ _ _ _ _ hfn
        have he : (d, my, your) ∈ exitsList := ((hr.2 pi).mem_iff).mp hd
        subst hne2
        exact carve_inv hinv (d, my, your) he hnu ci (pi + 1)
      | none =>
        rw [hfn] at hstep
        injection hstep with ht
        subst ht
        exact ⟨hinv.part, hinv.curKey, hinv.range, hinv.closure, hinv.count,
          hinv.reach, hinv.acyclic⟩
  | reject =>
    simp only [genStep] at hstep
    split at hstep
    · rename_i hv
      injection hstep with ht
      subst ht
      refine ⟨hinv.part, ?_, hinv.range, hinv.closure, hinv.count,
        hinv.reach, hinv.acyclic⟩
      exact (lookupCell_isSome_iff _ _).mp hv
    · injection hstep with ht
      subst ht
      exact ⟨hinv.part, hinv.curKey, hinv.range, hinv.closure, hinv.count,
        hinv.reach, hinv.acyclic⟩

theorem genRun_inv {w h : Int} {r : Draws} (hr : validDraws w h r) :
    ∀ (fuel : Nat) (s : GenState) (g : Grid), GenInv w h s →
      genRun r fuel s = some g →
      ∃ t : GenState, GenInv w h t ∧ t.unvisited = [] ∧ g = t.visited := by
  intro fuel
  induction fuel with
  | zero =>
    intro s g _ hrun
    simp [genRun] at hrun
  | succ k ih =>
    intro s g hinv hrun
    unfold genRun at hrun
    cases hstep : genStep r s with
    | inr g2 =>
      rw [hstep] at hrun
      injection hrun with hg
      obtain ⟨hemp, hgv⟩ := genStep_inr hstep
      exact ⟨s, hinv, hemp, hg ▸ hgv⟩
    | inl t =>
      rw [hstep] at hrun
      exact ih t g (genInv_step hr hinv hstep) hrun

lemma maskAt_singleton_zero (c0 x : Cell) : maskAt [(c0, 0)] x = 0 := by
  by_cases hx : c0 = x <;> simp [maskAt, lookupCell, hx]

theorem initState_inv {w h : Int} {r : Draws} (hr : validDraws w h r) :
    GenInv w h (initState w h r) := by
  have hc0 : inBounds w h (r.cells 0) := hr.1 0
  have hmem : r.cells 0 ∈ allCells w h := (mem_allCells w h _).mpr hc0
  have hnoadj : ∀ a b : GridCell w h,
      ¬ (mazeGraph w h [(r.cells 0, 0)]).Adj a b := by
    rintro a b (⟨f, hf, _, hbit⟩ | ⟨f, hf, _, hbit⟩) <;>
      · rw [maskAt_singleton_zero] at hbit
        exact hasExit_zero f hf hbit
  refine ⟨?_, ?_, ?_, ?_, ?_, ?_, ?_⟩
  · show (keysOf [(r.cells 0, 0)] ++ removeCell (allCells w h) (r.cells 0)).Perm _
    have : keysOf [(r.cells 0, 0)] = [r.cells 0] := rfl
    rw [this, List.singleton_append]
    exact (removeCell_perm (allCells w h) (r.cells 0) hmem).symm
  · show r.cells 0 ∈ keysOf [(r.cells 0, 0)]
    simp [keysOf]
  · intro p hp
    have hp2 : p ∈ [(r.cells 0, (0 : Int))] := hp
    rw [List.mem_singleton] at hp2
    subst hp2
    exact ⟨le_refl 0, by omega⟩
  · intro p hp f hf hbit
    have hp2 : p ∈ [(r.cells 0, (0 : Int))] := hp
    rw [List.mem_singleton] at hp2
    subst hp2
    exact absurd hbit (hasExit_zero f hf)
  · show bitSum [(r.cells 0, 0)] + 2 = 2 * 1
    have : bitSum [(r.cells 0, 0)] = 0 := by
      simp [bitSum, popcnt_zero]
    omega
  · intro a b ha hb
    have ha3 : a.1 ∈ keysOf [(r.cells 0, (0 : Int))] := ha
    have hb3 : b.1 ∈ keysOf [(r.cells 0, (0 : Int))] := hb
    have ha2 : a.1 = r.cells 0 := by
      simpa [keysOf] using ha3
    have hb2 : b.1 = r.cells 0 := by
      simpa [keysOf] using hb3
    have : a = b := Subtype.ext (ha2.trans hb2.symm)
    rw [this]
  · intro v c hc
    cases c with
    | nil => exact hc.toIsCircuit.ne_nil rfl
    | cons hadj p => exact hnoadj _ _ hadj

lemma popcnt_eq_filter_length (m : Int) :
    popcnt m = (exitsList.filter fun e => decide (hasExit m e.2.1)).length := by
  by_cases h1 : hasExit m 1 <;> by_cases h2 : hasExit m 2 <;>
    by_cases h4 : hasExit m 4 <;> by_cases h8 : hasExit m 8 <;>
    simp [popcnt, exitsList, List.filter, h1, h2, h4, h8]

lemma exits_nodup : exitsList.Nodup := by decide

lemma exits_mirror : ∀ f ∈ exitsList, ∃ f2 ∈ exitsList,
    f2.1.1 = -f.1.1 ∧ f2.1.2 = -f.1.2 ∧ f2.2.1 = f.2.2 ∧ f2.2.2 = f.2.1 := by
  decide

lemma degree_eq_popcnt {w h : Int} {g : Grid}
    (hclos : ∀ p ∈ g, ∀ e ∈ exitsList, hasExit p.2 e.2.1 →
      ∃ m2, lookupCell g (p.1.1 + e.1.1, p.1.2 + e.1.2) = some m2 ∧
        hasExit m2 e.2.2)
    (hkeys : ∀ c, c ∈ keysOf g ↔ inBounds w h c)
    (v : GridCell w h) :
    (mazeGraph w h g).degree v = popcnt (maskAt g v.1) := by
  classical
  have hmaskbit : ∀ (c : Cell), c ∈ keysOf g → ∀ e ∈ exitsList,
      hasExit (maskAt g c) e.2.1 →
      inBounds w h (c.1 + e.1.1, c.2 + e.1.2) ∧
        hasExit (maskAt g (c.1 + e.1.1, c.2 + e.1.2)) e.2.2 := by
    intro c hck e he hbit
    obtain ⟨mv, hmv⟩ := Option.isSome_iff_exists.mp
      ((lookupCell_isSome_iff g c).mpr hck)
    have hmem : (c, mv) ∈ g := lookupCell_mem _ _ _ hmv
    have hbit2 : hasExit mv e.2.1 := by
      rw [← maskAt_of_lookup hmv]; exact hbit
    obtain ⟨m2, hl2, hb2⟩ := hclos (c, mv) hmem e he hbit2
    have htk : (c.1 + e.1.1, c.2 + e.1.2) ∈ keysOf g :=
      (lookupCell_isSome_iff g _).mp (by rw [hl2]; rfl)
    refine ⟨(hkeys _).mp htk, ?_⟩
    rw [maskAt_of_lookup hl2]; exact hb2
  have hvk : v.1 ∈ keysOf g := (hkeys v.1).mpr v.2
  have card_eq :
      ((exitsList.filter fun e =>
          decide (hasExit (maskAt g v.1) e.2.1)).toFinset).card
        = ((mazeGraph w h g).neighborFinset v).card := by
    refine Finset.card_bij
      (fun e _ => if hb : inBounds w h (v.1.1 + e.1.1, v.1.2 + e.1.2)
        then ⟨(v.1.1 + e.1.1, v.1.2 + e.1.2), hb⟩ else v) ?_ ?_ ?_
    · intro e ha
      rw [List.mem_toFinset, List.mem_filter] at ha
      obtain ⟨he, hd⟩ := ha
      have hbit := of_decide_eq_true hd
      obtain ⟨hbnd, _⟩ := hmaskbit v.1 hvk e he hbit
      simp only [dif_pos hbnd, SimpleGraph.mem_neighborFinset]
      exact Or.inl ⟨e, he, rfl, hbit⟩
    · intro e1 ha1 e2 ha2 heq
      rw [List.mem_toFinset, List.mem_filter] at ha1 ha2
      have hbit1 := of_decide_eq_true ha1.2
      have hbit2 := of_decide_eq_true ha2.2
      obtain ⟨hb1, _⟩ := hmaskbit v.1 hvk e1 ha1.1 hbit1
      obtain ⟨hb2, _⟩ := hmaskbit v.1 hvk e2 ha2.1 hbit2
      simp only [dif_pos hb1, dif_pos hb2] at heq
      have hco : ((v.1.1 + e1.1.1, v.1.2 + e1.1.2) : Cell)
          = (v.1.1 + e2.1.1, v.1.2 + e2.1.2) := congrArg Subtype.val heq
      rw [Prod.mk.injEq] at hco
      have hd12 : e1.1 = e2.1 := by
        refine Prod.ext ?_ ?_ <;> omega
      exact exits_delta_unique e1 ha1.1 e2 ha2.1 hd12
    · intro u hu
      rw [SimpleGraph.mem_neighborFinset] at hu
      rcases hu with ⟨f, hf, huq, hbit⟩ | ⟨f, hf, hvq, hbit⟩
      · refine ⟨f, ?_, ?_⟩
        · rw [List.mem_toFinset, List.mem_filter]
          exact ⟨hf, decide_eq_true hbit⟩
        · have hbnd : inBounds w h (v.1.1 + f.1.1, v.1.2 + f.1.2) := by
            rw [← huq]; exact u.2
          simp only [dif_pos hbnd]
          exact Subtype.ext huq.symm
      · obtain ⟨f2, hf2, he1, he2, he3, _⟩ := exits_mirror f hf
        have huk : u.1 ∈ keysOf g := by
          by_contra huk
          rw [maskAt_of_not_key huk] at hbit
          exact hasExit_zero f hf hbit
        obtain ⟨_, hb2⟩ := hmaskbit u.1 huk f hf hbit
        have h1 : v.1.1 = u.1.1 + f.1.1 := by rw [hvq]
        have h2 : v.1.2 = u.1.2 + f.1.2 := by rw [hvq]
        have htu : ((v.1.1 + f2.1.1, v.1.2 + f2.1.2) : Cell) = u.1 := by
          have hu1 : u.1 = (u.1.1, u.1.2) := rfl
          rw [hu1, Prod.mk.injEq]
          omega
        have hbitv : hasExit (maskAt g v.1) f2.2.1 := by
          rw [he3]
          have : ((u.1.1 + f.1.1, u.1.2 + f.1.2) : Cell) = v.1 := by
            rw [hvq]
          rw [← this]
          exact hb2
        refine ⟨f2, ?_, ?_⟩
        · rw [List.mem_toFinset, List.mem_filter]
          exact ⟨hf2, decide_eq_true hbitv⟩
        · have hbnd : inBounds w h (v.1.1 + f2.1.1, v.1.2 + f2.1.2) := by
            rw [htu]; exact u.2
          simp only [dif_pos hbnd]
          exact Subtype.ext htu
  have hfn : (exitsList.filter fun e =>
      decide (hasExit (maskAt g v.1) e.2.1)).Nodup :=
    exits_nodup.filter _
  calc (mazeGraph w h g).degree v
      = ((mazeGraph w h g).neighborFinset v).card := rfl
    _ = ((exitsList.filter fun e =>
          decide (hasExit (maskAt g v.1) e.2.1)).toFinset).card := card_eq.symm
    _ = (exitsList.filter fun e =>
          decide (hasExit (maskAt g v.1) e.2.1)).length := by
        rw [List.card_toFinset, hfn.dedup]
    _ = popcnt (maskAt g v.1) := (popcnt_eq_filter_length _).symm

lemma bitSum_eq_keys_sum (g : Grid) (hnd : (keysOf g).Nodup) :
    bitSum g = ((keysOf g).map fun c => popcnt (maskAt g c)).sum := by
  induction g with
  | nil => rfl
  | cons p t ih =>
    obtain ⟨c, m⟩ := p
    have hnd2 := List.nodup_cons.mp hnd
    have hhead : maskAt ((c, m) :: t) c = m := by simp [maskAt, lookupCell]
    have htail : ∀ d ∈ keysOf t,
        (fun d => popcnt (maskAt ((c, m) :: t) d)) d
          = (fun d => popcnt (maskAt t d)) d := by
      intro d hd
      have hcd : c ≠ d := fun hcd => hnd2.1 (hcd ▸ hd)
      show popcnt (maskAt ((c, m) :: t) d) = popcnt (maskAt t d)
      rw [maskAt, lookupCell, if_neg hcd]
      rfl
    show popcnt m + bitSum t = _
    have hk : keysOf ((c, m) :: t) = c :: keysOf t := rfl
    rw [hk, List.map_cons, List.sum_cons, hhead,
      List.map_congr_left htail, ← ih hnd2.2]

lemma sum_popcnt_univ (w h : Int) (g : Grid) :
    ∑ v : GridCell w h, popcnt (maskAt g v.1)
      = ((allCells w h).map fun c => popcnt (maskAt g c)).sum := by
  rw [← Finset.sum_subtype ((allCells w h).toFinset)
    (fun x => (List.mem_toFinset).trans (mem_allCells w h x))
    (fun c => popcnt (maskAt g c))]
  exact List.sum_toFinset _ (allCells_nodup w h)

lemma card_gridCell (w h : Int) :
    Fintype.card (GridCell w h) = w.toNat * h.toNat := by
  rw [Fintype.card_of_subtype ((allCells w h).toFinset)
    (fun x => (List.mem_toFinset).trans (mem_allCells w h x))]
  rw [List.card_toFinset, (allCells_nodup w h).dedup, allCells_length]

/-- C1: for positive dimensions, legal draws and any fuel on which
`generate` terminates with a grid, the visited dictionary holds every
in-bounds cell exactly once (its keys have no duplicates and are exactly
the grid cells), and the graph the exit bitmasks imply is a spanning tree:
connected, acyclic, with exactly `width * height - 1` edges. -/
theorem c1_spanning_tree (w h : Int) (r : Draws) (fuel : Nat) (g : Grid)
    (hw : 1 ≤ w) (hh : 1 ≤ h) (hr : validDraws w h r)
    (hok : generate w h r fuel = .ok g) :
    (keysOf g).Nodup ∧ (∀ c, c ∈ keysOf g ↔ inBounds w h c) ∧
      (mazeGraph w h g).IsTree ∧
      (mazeGraph w h g).edgeFinset.card + 1 = w.toNat * h.toNat := by
  unfold generate at hok
  rw [if_neg (by omega)] at hok
  cases hrun : genRun r fuel (initState w h r) with
  | none => rw [hrun] at hok; cases hok
  | some g2 =>
    rw [hrun] at hok
    injection hok with hg
    subst hg
    obtain ⟨t, hinv, hemp, hgv⟩ :=
      genRun_inv hr fuel (initState w h r) g2 (initState_inv hr) hrun
    subst hgv
    have hperm : (keysOf t.visited).Perm (allCells w h) := by
      have hp := hinv.part
      rw [hemp, List.append_nil] at hp
      exact hp
    have hnd : (keysOf t.visited).Nodup :=
      hperm.nodup_iff.mpr (allCells_nodup w h)
    have hkeys : ∀ c, c ∈ keysOf t.visited ↔ inBounds w h c :=
      fun c => hperm.mem_iff.trans (mem_allCells w h c)
    have hconn : (mazeGraph w h t.visited).Connected := by
      rw [SimpleGraph.connected_iff]
      constructor
      · intro a b
        exact hinv.reach a b ((hkeys a.1).mpr a.2) ((hkeys b.1).mpr b.2)
      · exact ⟨⟨(0, 0), by unfold inBounds; refine ⟨?_, ?_, ?_, ?_⟩ <;> omega⟩⟩
    refine ⟨hnd, hkeys, ⟨hconn, hinv.acyclic⟩, ?_⟩
    have hhand : ∑ v : GridCell w h, (mazeGraph w h t.visited).degree v
        = 2 * (mazeGraph w h t.visited).edgeFinset.card :=
      SimpleGraph.sum_degrees_eq_twice_card_edges _
    have hdeg : ∑ v : GridCell w h, (mazeGraph w h t.visited).degree v
        = ∑ v : GridCell w h, popcnt (maskAt t.visited v.1) :=
      Finset.sum_congr rfl fun v _ =>
        degree_eq_popcnt hinv.closure hkeys v
    have hsum : ∑ v : GridCell w h, popcnt (maskAt t.visited v.1)
        = bitSum t.visited := by
      rw [sum_popcnt_univ, bitSum_eq_keys_sum t.visited hnd]
      exact ((hperm.map fun c => popcnt (maskAt t.visited c)).sum_eq).symm
    have hlen : t.visited.length = w.toNat * h.toNat := by
      have h1 : (keysOf t.visited).length = (allCells w h).length :=
        hperm.length_eq
      rw [allCells_length] at h1
      rw [← h1, keysOf, List.length_map]
    have hcount := hinv.count
    rw [hhand] at hdeg
    rw [hsum] at hdeg
    omega

theorem c1_witness :
    (keysOf gTwo).Nodup ∧ (∀ c, c ∈ keysOf gTwo ↔ inBounds 2 1 c) ∧
      (mazeGraph 2 1 gTwo).IsTree ∧
      (mazeGraph 2 1 gTwo).edgeFinset.card + 1 = (2 : Int).toNat * (1 : Int).toNat :=
  c1_spanning_tree 2 1 (constDraws (0, 0)) 2 gTwo (by decide) (by decide)
    ⟨fun _ => (by decide : inBounds 2 1 (0, 0)),
      fun _ => List.Perm.refl exitsList⟩ (by decide)

lemma recvSum_nil (t : Cell) : recvSum [] t = 0 := by
  unfold recvSum exitsList
  simp

lemma recvSum_expand (P : List (Cell × Int)) (t : Cell) :
    recvSum P t =
      (if ((t.1 + 0, t.2 + 1), (2 : Int)) ∈ P then (1 : Int) else 0)
      + ((if ((t.1 + 0, t.2 + -1), (1 : Int)) ∈ P then (2 : Int) else 0)
      + ((if ((t.1 + 1, t.2 + 0), (8 : Int)) ∈ P then (4 : Int) else 0)
      + ((if ((t.1 + -1, t.2 + 0), (4 : Int)) ∈ P then (8 : Int) else 0) + 0))) :=
  rfl

lemma recvSum_nonneg (P : List (Cell × Int)) (t : Cell) : 0 ≤ recvSum P t := by
  rw [recvSum_expand]
  split_ifs <;> omega

lemma sum_map_add_int {α : Type} (l : List α) (f g : α → Int) :
    (l.map fun x => f x + g x).sum = (l.map f).sum + (l.map g).sum := by
  induction l with
  | nil => simp
  | cons a tl ih =>
    simp only [List.map_cons, List.sum_cons, ih]
    omega

lemma recvSum_append_single (P : List (Cell × Int)) (q : Cell × Int) (t : Cell)
    (hq : q ∉ P) :
    recvSum (P ++ [q]) t = recvSum P t + recvSum [q] t := by
  unfold recvSum
  rw [← sum_map_add_int]
  apply congrArg List.sum
  apply List.map_congr_left
  intro f _
  by_cases h1 : ((t.1 + f.1.1, t.2 + f.1.2), f.2.2) ∈ P
  · have hxq : ¬ ((t.1 + f.1.1, t.2 + f.1.2), f.2.2) ∈ [q] := by
      rw [List.mem_singleton]
      rintro rfl
      exact hq h1
    rw [if_pos (List.mem_append.mpr (Or.inl h1)), if_pos h1, if_neg hxq]
    omega
  · by_cases h2 : ((t.1 + f.1.1, t.2 + f.1.2), f.2.2) ∈ [q]
    · rw [if_pos (List.mem_append.mpr (Or.inr h2)), if_neg h1, if_pos h2]
      omega
    · rw [if_neg (fun hm => (List.mem_append.mp hm).elim h1 h2),
        if_neg h1, if_neg h2]
      omega

lemma recvSum_single_nomatch (c : Cell) (m : Int) (t : Cell)
    (hno : ∀ f ∈ exitsList, ¬ (m = f.2.2 ∧ c = (t.1 + f.1.1, t.2 + f.1.2))) :
    recvSum [(c, m)] t = 0 := by
  have h1 : ¬ ((t.1 + 0, t.2 + 1), (2 : Int)) ∈ [(c, m)] := by
    rw [List.mem_singleton]
    intro hq
    exact hno ((0, 1), 1, 2) (by decide)
      ⟨(congrArg Prod.snd hq).symm, (congrArg Prod.fst hq).symm⟩
  have h2 : ¬ ((t.1 + 0, t.2 + -1), (1 : Int)) ∈ [(c, m)] := by
    rw [List.mem_singleton]
    intro hq
    exact hno ((0, -1), 2, 1) (by decide)
      ⟨(congrArg Prod.snd hq).symm, (congrArg Prod.fst hq).symm⟩
  have h3 : ¬ ((t.1 + 1, t.2 + 0), (8 : Int)) ∈ [(c, m)] := by
    rw [List.mem_singleton]
    intro hq
    exact hno ((1, 0), 4, 8) (by decide)
      ⟨(congrArg Prod.snd hq).symm, (congrArg Prod.fst hq).symm⟩
  have h4 : ¬ ((t.1 + -1, t.2 + 0), (4 : Int)) ∈ [(c, m)] := by
    rw [List.mem_singleton]
    intro hq
    exact hno ((-1, 0), 8, 4) (by decide)
      ⟨(congrArg Prod.snd hq).symm, (congrArg Prod.fst hq).symm⟩
  rw [recvSum_expand, if_neg h1, if_neg h2, if_neg h3, if_neg h4]
  omega

lemma recvSum_single_match (c : Cell) (e0 : (Int × Int) × Int × Int)
    (he0 : e0 ∈ exitsList) (t : Cell)
    (ht1 : t.1 = c.1 + e0.1.1) (ht2 : t.2 = c.2 + e0.1.2) :
    recvSum [(c, e0.2.1)] t = e0.2.2 := by
  rw [mem_exits_iff] at he0
  rcases he0 with rfl | rfl | rfl | rfl
  · have hpos : ((t.1 + 0, t.2 + -1), (1 : Int)) ∈ [(c, (1 : Int))] := by
      rw [List.mem_singleton]
      refine Prod.ext (Prod.ext ?_ ?_) rfl
      · show t.1 + 0 = c.1
        simp only [] at ht1
        omega
      · show t.2 + -1 = c.2
        simp only [] at ht2
        omega
    have hn1 : ¬ ((t.1 + 0, t.2 + 1), (2 : Int)) ∈ [(c, (1 : Int))] := by
      rw [List.mem_singleton]
      intro hq
      have hq2 := congrArg Prod.snd hq
      simp at hq2
    have hn3 : ¬ ((t.1 + 1, t.2 + 0), (8 : Int)) ∈ [(c, (1 : Int))] := by
      rw [List.mem_singleton]
      intro hq
      have hq2 := congrArg Prod.snd hq
      simp at hq2
    have hn4 : ¬ ((t.1 + -1, t.2 + 0), (4 : Int)) ∈ [(c, (1 : Int))] := by
      rw [List.mem_singleton]
      intro hq
      have hq2 := congrArg Prod.snd hq
      simp at hq2
    rw [recvSum_expand, if_neg hn1, if_pos hpos, if_neg hn3, if_neg hn4]
    decide
  · have hpos : ((t.1 + 0, t.2 + 1), (2 : Int)) ∈ [(c, (2 : Int))] := by
      rw [List.mem_singleton]
      refine Prod.ext (Prod.ext ?_ ?_) rfl
      · show t.1 + 0 = c.1
        simp only [] at ht1
        omega
      · show t.2 + 1 = c.2
        simp only [] at ht2
        omega
    have hn2 : ¬ ((t.1 + 0, t.2 + -1), (1 : Int)) ∈ [(c, (2 : Int))] := by
      rw [List.mem_singleton]
      intro hq
      have hq2 := congrArg Prod.snd hq
      simp at hq2
    have hn3 : ¬ ((t.1 + 1, t.2 + 0), (8 : Int)) ∈ [(c, (2 : Int))] := by
      rw [List.mem_singleton]
      intro hq
      have hq2 := congrArg Prod.snd hq
      simp at hq2
    have hn4 : ¬ ((t.1 + -1, t.2 + 0), (4 : Int)) ∈ [(c, (2 : Int))] := by
      rw [List.mem_singleton]
      intro hq
      have hq2 := congrArg Prod.snd hq
      simp at hq2
    rw [recvSum_expand, if_pos hpos, if_neg hn2, if_neg hn3, if_neg hn4]
    decide
  · have hpos : ((t.1 + -1, t.2 + 0), (4 : Int)) ∈ [(c, (4 : Int))] := by
      rw [List.mem_singleton]
      refine Prod.ext (Prod.ext ?_ ?_) rfl
      · show t.1 + -1 = c.1
        simp only [] at ht1
        omega
      · show t.2 + 0 = c.2
        simp only [] at ht2
        omega
    have hn1 : ¬ ((t.1 + 0, t.2 + 1), (2 : Int)) ∈ [(c, (4 : Int))] := by
      rw [List.mem_singleton]
      intro hq
      have hq2 := congrArg Prod.snd hq
      simp at hq2
    have hn2 : ¬ ((t.1 + 0, t.2 + -1), (1 : Int)) ∈ [(c, (4 : Int))] := by
      rw [List.mem_singleton]
      intro hq
      have hq2 := congrArg Prod.snd hq
      simp at hq2
    have hn3 : ¬ ((t.1 + 1, t.2 + 0), (8 : Int)) ∈ [(c, (4 : Int))] := by
      rw [List.mem_singleton]
      intro hq
      have hq2 := congrArg Prod.snd hq
      simp at hq2
    rw [recvSum_expand, if_neg hn1, if_neg hn2, if_neg hn3, if_pos hpos]
    decide
  · have hpos : ((t.1 + 1, t.2 + 0), (8 : Int)) ∈ [(c, (8 : Int))] := by
      rw [List.mem_singleton]
      refine Prod.ext (Prod.ext ?_ ?_) rfl
      · show t.1 + 1 = c.1
        simp only [] at ht1
        omega
      · show t.2 + 0 = c.2
        simp only [] at ht2
        omega
    have hn1 : ¬ ((t.1 + 0, t.2 + 1), (2 : Int)) ∈ [(c, (8 : Int))] := by
      rw [List.mem_singleton]
      intro hq
      have hq2 := congrArg Prod.snd hq
      simp at hq2
    have hn2 : ¬ ((t.1 + 0, t.2 + -1), (1 : Int)) ∈ [(c, (8 : Int))] := by
      rw [List.mem_singleton]
      intro hq
      have hq2 := congrArg Prod.snd hq
      simp at hq2
    have hn4 : ¬ ((t.1 + -1, t.2 + 0), (4 : Int)) ∈ [(c, (8 : Int))] := by
      rw [List.mem_singleton]
      intro hq
      have hq2 := congrArg Prod.snd hq
      simp at hq2
    rw [recvSum_expand, if_neg hn1, if_neg hn2, if_pos hpos, if_neg hn4]
    decide

lemma zeroedBy_nil (t : Cell) : ¬ zeroedBy [] t := by
  rintro ⟨b, hb, _⟩
  exact (List.not_mem_nil _) hb

lemma zeroedBy_append (P : List (Cell × Int)) (c : Cell) (m : Int) (t : Cell) :
    zeroedBy (P ++ [(c, m)]) t ↔
      zeroedBy P t ∨ (t = c ∧ (m = 1 ∨ m = 2 ∨ m = 4 ∨ m = 8)) := by
  unfold zeroedBy
  constructor
  · rintro ⟨b, hb, hbits⟩
    rcases List.mem_append.mp hb with hm | hm
    · exact Or.inl ⟨b, hm, hbits⟩
    · rw [List.mem_singleton] at hm
      have h1 : t = c := congrArg Prod.fst hm
      have h2 : b = m := congrArg Prod.snd hm
      exact Or.inr ⟨h1, h2 ▸ hbits⟩
  · rintro (⟨b, hb, hbits⟩ | ⟨ht, hbits⟩)
    · exact ⟨b, List.mem_append.mpr (Or.inl hb), hbits⟩
    · refine ⟨m, List.mem_append.mpr (Or.inr ?_), hbits⟩
      rw [List.mem_singleton, ht]

lemma maskAt_update_self {g : Grid} {c : Cell} (hc : c ∈ keysOf g) (v : Int) :
    maskAt (updateCell g c v) c = v := by
  have hs := (lookupCell_isSome_iff g c).mpr hc
  rw [maskAt, lookupCell_update, if_pos rfl]
  cases hl : lookupCell g c with
  | none => rw [hl] at hs; simp at hs
  | some m => rfl

lemma maskAt_update_other {g : Grid} {c : Cell} (d : Cell) (hne : c ≠ d)
    (v : Int) : maskAt (updateCell g c v) d = maskAt g d := by
  rw [maskAt, lookupCell_update, if_neg hne, maskAt]

lemma maskAt_addToCell_self {g : Grid} {c : Cell} (hc : c ∈ keysOf g)
    (d : Int) : maskAt (addToCell g c d) c = maskAt g c + d := by
  have hs := (lookupCell_isSome_iff g c).mpr hc
  rw [maskAt, lookupCell_addToCell, if_pos rfl]
  cases hl : lookupCell g c with
  | none => rw [hl] at hs; simp at hs
  | some m => simp [maskAt, hl]

lemma maskAt_addToCell_other {g : Grid} {c : Cell} (d : Cell) (hne : c ≠ d)
    (v : Int) : maskAt (addToCell g c v) d = maskAt g d := by
  rw [maskAt, lookupCell_addToCell, if_neg hne, maskAt]

lemma exits_pos_bits : ∀ e ∈ exitsList,
    (e.2.1 = 1 ∨ e.2.1 = 2 ∨ e.2.1 = 4 ∨ e.2.1 = 8) ∧ 0 < e.2.2 ∧
      0 ≤ e.2.1 ∧ hasExit e.2.1 e.2.1 ∧ (e.1.1 ≠ 0 ∨ e.1.2 ≠ 0) := by decide

lemma exits_your_unique : ∀ e ∈ exitsList, ∀ f ∈ exitsList,
    e.2.2 = f.2.2 → e = f := by decide

lemma exits_your_bits2 : ∀ e ∈ exitsList,
    e.2.2 = 1 ∨ e.2.2 = 2 ∨ e.2.2 = 4 ∨ e.2.2 = 8 := by decide

lemma exits_mirror_delta : ∀ e ∈ exitsList, ∀ f ∈ exitsList,
    e.2.1 = f.2.2 → e.1.1 = -f.1.1 ∧ e.1.2 = -f.1.2 := by decide

lemma bits_of_single_corridor_none (m : Int) (h : single_corridor m = none) :
    ¬ (m = 1 ∨ m = 2 ∨ m = 4 ∨ m = 8) := by
  rintro (rfl | rfl | rfl | rfl) <;> exact absurd h (by decide)

lemma key_not_in_prefix {g P R : List (Cell × Int)} {c : Cell} {m : Int}
    (hnd : (keysOf g).Nodup) (hsplit : g = P ++ (c, m) :: R) :
    c ∉ keysOf P := by
  rw [hsplit, keysOf_append] at hnd
  have hd := (List.nodup_append.mp hnd).2.2
  intro hcP
  exact hd hcP (List.mem_cons_self _ _)

lemma entry_not_in_prefix {g P R : List (Cell × Int)} {c : Cell} {m : Int}
    (hnd : (keysOf g).Nodup) (hsplit : g = P ++ (c, m) :: R) :
    (c, m) ∉ P := by
  intro hp
  exact key_not_in_prefix hnd hsplit (List.mem_map.mpr ⟨(c, m), hp, rfl⟩)

lemma mid_step_none {g : Grid} {P R : List (Cell × Int)} {c : Cell} {m : Int}
    (hnd : (keysOf g).Nodup) (hsplit : g = P ++ (c, m) :: R) {gcur : Grid}
    (hmid : MidInv g gcur P) (hm : single_corridor m = none) :
    MidInv g gcur (P ++ [(c, m)]) := by
  obtain ⟨hk, hmask⟩ := hmid
  have hbits := bits_of_single_corridor_none m hm
  have hcm : (c, m) ∉ P := entry_not_in_prefix hnd hsplit
  refine ⟨hk, fun t ht => ⟨?_, ?_⟩⟩
  · intro hz
    rcases (zeroedBy_append P c m t).mp hz with hz2 | ⟨_, hb⟩
    · exact (hmask t ht).1 hz2
    · exact absurd hb hbits
  · intro hnz
    have hnz2 : ¬ zeroedBy P t :=
      fun hzz => hnz ((zeroedBy_append P c m t).mpr (Or.inl hzz))
    have hone : recvSum [(c, m)] t = 0 := by
      apply recvSum_single_nomatch
      intro f hf hand
      obtain ⟨hmf, _⟩ := hand
      rcases exits_your_bits2 f hf with hb | hb | hb | hb <;> omega
    have h2 := (hmask t ht).2 hnz2
    rw [recvSum_append_single P (c, m) t hcm, hone]
    omega

lemma mid_step_some {w h : Int} {g : Grid} (hs : SparseInv w h g)
    {P R : List (Cell × Int)} {c : Cell} {m : Int}
    (hsplit : g = P ++ (c, m) :: R) {gcur : Grid}
    (hmid : MidInv g gcur P) {e0 : (Int × Int) × Int × Int}
    (he0 : e0 ∈ exitsList) (hme : m = e0.2.1) :
    MidInv g (addToCell (updateCell gcur c 0) (c.1 + e0.1.1, c.2 + e0.1.2)
      (-e0.2.2)) (P ++ [(c, m)]) := by
  obtain ⟨hk, hmask⟩ := hmid
  have hcg : (c, m) ∈ g := by
    rw [hsplit]
    exact List.mem_append.mpr (Or.inr (List.mem_cons_self _ _))
  have hck : c ∈ keysOf g := List.mem_map.mpr ⟨(c, m), hcg, rfl⟩
  have hfacts := exits_pos_bits e0 he0
  have hm0 : 0 ≤ m := hme ▸ hfacts.2.2.1
  have hbit : hasExit m e0.2.1 := hme ▸ hfacts.2.2.2.1
  have hmir := hs.mirror (c, m) hcg hm0 e0 he0 hbit
  have ht0k : (c.1 + e0.1.1, c.2 + e0.1.2) ∈ keysOf g := (hs.keys _).mpr hmir.1
  have hct0 : c ≠ (c.1 + e0.1.1, c.2 + e0.1.2) := by
    intro hq
    have h1 := congrArg Prod.fst hq
    have h2 := congrArg Prod.snd hq
    simp only [] at h1 h2
    rcases hfacts.2.2.2.2 with hd | hd <;> omega
  have hcm : (c, m) ∉ P := entry_not_in_prefix hs.nodup hsplit
  have hmbits : m = 1 ∨ m = 2 ∨ m = 4 ∨ m = 8 := by
    rcases hfacts.1 with hb | hb | hb | hb <;> omega
  refine ⟨by rw [keysOf_addToCell, keysOf_update, hk], fun t ht => ⟨?_, ?_⟩⟩
  · intro hz
    by_cases htc : t = c
    · subst htc
      rw [maskAt_addToCell_other t (fun hq => hct0 hq.symm),
        maskAt_update_self (by rw [hk]; exact hck)]
    · by_cases htt0 : t = (c.1 + e0.1.1, c.2 + e0.1.2)
      · subst htt0
        rw [maskAt_addToCell_self (by rw [keysOf_update, hk]; exact ht0k),
          maskAt_update_other _ hct0]
        have hz2 : zeroedBy P (c.1 + e0.1.1, c.2 + e0.1.2) := by
          rcases (zeroedBy_append _ _ _ _).mp hz with hz2 | ⟨hq, _⟩
          · exact hz2
          · exact absurd hq.symm hct0
        have hle := (hmask _ ht).1 hz2
        have hpos := hfacts.2.1
        omega
      · rw [maskAt_addToCell_other t (fun hq => htt0 hq.symm),
          maskAt_update_other t (fun hq => htc hq.symm)]
        have hz2 : zeroedBy P t := by
          rcases (zeroedBy_append _ _ _ _).mp hz with hz2 | ⟨hq, _⟩
          · exact hz2
          · exact absurd hq htc
        exact (hmask t ht).1 hz2
  · intro hnz
    by_cases htc : t = c
    · exfalso
      exact hnz ((zeroedBy_append _ _ _ _).mpr (Or.inr ⟨htc, hmbits⟩))
    · have hnz2 : ¬ zeroedBy P t :=
        fun hzz => hnz ((zeroedBy_append _ _ _ _).mpr (Or.inl hzz))
      have h2 := (hmask t ht).2 hnz2
      by_cases htt0 : t = (c.1 + e0.1.1, c.2 + e0.1.2)
      · subst htt0
        rw [maskAt_addToCell_self (by rw [keysOf_update, hk]; exact ht0k),
          maskAt_update_other _ hct0]
        have hone : recvSum [(c, m)] (c.1 + e0.1.1, c.2 + e0.1.2) = e0.2.2 := by
          rw [hme]
          exact recvSum_single_match c e0 he0 _ rfl rfl
        rw [recvSum_append_single P (c, m) _ hcm, hone]
        omega
      · rw [maskAt_addToCell_other t (fun hq => htt0 hq.symm),
          maskAt_update_other t (fun hq => htc hq.symm)]
        have hone : recvSum [(c, m)] t = 0 := by
          apply recvSum_single_nomatch
          intro f hf hand
          obtain ⟨hmf, hcf⟩ := hand
          have hef : e0.2.1 = f.2.2 := by rw [← hme, ← hmf]
          obtain ⟨hd1, hd2⟩ := exits_mirror_delta e0 he0 f hf hef
          apply htt0
          have hc1 := congrArg Prod.fst hcf
          have hc2 := congrArg Prod.snd hcf
          simp only [] at hc1 hc2
          refine Prod.ext ?_ ?_
          · show t.1 = c.1 + e0.1.1
            omega
          · show t.2 = c.2 + e0.1.2
            omega
        rw [recvSum_append_single P (c, m) t hcm, hone]
        omega

lemma sparsifyItems_mid {w h : Int} {g : Grid} (hs : SparseInv w h g) :
    ∀ (R P : List (Cell × Int)) (gcur : Grid), g = P ++ R →
      MidInv g gcur P → MidInv g (sparsifyItems R gcur) (P ++ R) := by
  intro R
  induction R with
  | nil =>
    intro P gcur hsplit hmid
    rw [List.append_nil]
    exact hmid
  | cons q R2 ih =>
    intro P gcur hsplit hmid
    obtain ⟨c, m⟩ := q
    have hsplit2 : g = (P ++ [(c, m)]) ++ R2 := by
      rw [hsplit, List.append_assoc, List.singleton_append]
    have happ : P ++ (c, m) :: R2 = (P ++ [(c, m)]) ++ R2 := by
      rw [List.append_assoc, List.singleton_append]
    rw [happ]
    cases hm : single_corridor m with
    | none =>
      have hstep := mid_step_none hs.nodup hsplit hmid hm
      have heq : sparsifyItems ((c, m) :: R2) gcur = sparsifyItems R2 gcur := by
        simp [sparsifyItems, hm]
      rw [heq]
      exact ih (P ++ [(c, m)]) gcur hsplit2 hstep
    | some x =>
      obtain ⟨d, diff⟩ := x
      obtain ⟨e0, he0, hme, hx⟩ := single_corridor_eq_some m (d, diff) hm
      have hd : d = e0.1 := congrArg Prod.fst hx
      have hdiff : diff = -e0.2.2 := congrArg Prod.snd hx
      have hstep := mid_step_some hs hsplit hmid he0 hme
      have heq : sparsifyItems ((c, m) :: R2) gcur
          = sparsifyItems R2
              (addToCell (updateCell gcur c 0) (c.1 + d.1, c.2 + d.2) diff) := by
        simp [sparsifyItems, hm]
      rw [heq, hd, hdiff]
      exact ih (P ++ [(c, m)]) _ hsplit2 hstep

lemma zeroedBy_self_iff {g : Grid} (hnd : (keysOf g).Nodup) (t : Cell)
    (ht : t ∈ keysOf g) :
    zeroedBy g t ↔
      (maskAt g t = 1 ∨ maskAt g t = 2 ∨ maskAt g t = 4 ∨ maskAt g t = 8) := by
  constructor
  · rintro ⟨b, hb, hbits⟩
    have hl := mem_lookupCell_of_nodup g t b hnd hb
    rw [maskAt_of_lookup hl]
    exact hbits
  · intro hbits
    exact ⟨maskAt g t, mem_of_maskAt_of_key g t ht, hbits⟩

lemma recvSum_facts {w h : Int} {g : Grid} (hs : SparseInv w h g) (t : Cell) :
    ∃ r1 r2 r4 r8 : Int,
      recvSum g t = r1 + (r2 + (r4 + (r8 + 0))) ∧
      ((r1 = 1 ∧ ((t.1 + 0, t.2 + 1), (2 : Int)) ∈ g ∧
          hasExit (maskAt g t) 1) ∨ r1 = 0) ∧
      ((r2 = 2 ∧ ((t.1 + 0, t.2 + -1), (1 : Int)) ∈ g ∧
          hasExit (maskAt g t) 2) ∨ r2 = 0) ∧
      ((r4 = 4 ∧ ((t.1 + 1, t.2 + 0), (8 : Int)) ∈ g ∧
          hasExit (maskAt g t) 4) ∨ r4 = 0) ∧
      ((r8 = 8 ∧ ((t.1 + -1, t.2 + 0), (4 : Int)) ∈ g ∧
          hasExit (maskAt g t) 8) ∨ r8 = 0) ∧
      (((t.1 + 0, t.2 + 1), (2 : Int)) ∈ g → r1 = 1) ∧
      (((t.1 + 0, t.2 + -1), (1 : Int)) ∈ g → r2 = 2) ∧
      (((t.1 + 1, t.2 + 0), (8 : Int)) ∈ g → r4 = 4) ∧
      (((t.1 + -1, t.2 + 0), (4 : Int)) ∈ g → r8 = 8) := by
  refine ⟨if ((t.1 + 0, t.2 + 1), (2 : Int)) ∈ g then 1 else 0,
    if ((t.1 + 0, t.2 + -1), (1 : Int)) ∈ g then 2 else 0,
    if ((t.1 + 1, t.2 + 0), (8 : Int)) ∈ g then 4 else 0,
    if ((t.1 + -1, t.2 + 0), (4 : Int)) ∈ g then 8 else 0,
    recvSum_expand g t, ?_, ?_, ?_, ?_, ?_, ?_, ?_, ?_⟩
  · by_cases hc : ((t.1 + 0, t.2 + 1), (2 : Int)) ∈ g
    · refine Or.inl ⟨if_pos hc, hc, ?_⟩
      have hmir := hs.mirror _ hc (show (0 : Int) ≤ 2 by decide)
        ((0, -1), 2, 1) (by decide) (show hasExit 2 2 by decide)
      have hm2 := hmir.2
      simp only [] at hm2
      have hcell : ((t.1 + 0 + 0, t.2 + 1 + -1) : Cell) = t := by
        refine Prod.ext ?_ ?_ <;> simp only [] <;> omega
      rwa [hcell] at hm2
    · exact Or.inr (if_neg hc)
  · by_cases hc : ((t.1 + 0, t.2 + -1), (1 : Int)) ∈ g
    · refine Or.inl ⟨if_pos hc, hc, ?_⟩
      have hmir := hs.mirror _ hc (show (0 : Int) ≤ 1 by decide)
        ((0, 1), 1, 2) (by decide) (show hasExit 1 1 by decide)
      have hm2 := hmir.2
      simp only [] at hm2
      have hcell : ((t.1 + 0 + 0, t.2 + -1 + 1) : Cell) = t := by
        refine Prod.ext ?_ ?_ <;> simp only [] <;> omega
      rwa [hcell] at hm2
    · exact Or.inr (if_neg hc)
  · by_cases hc : ((t.1 + 1, t.2 + 0), (8 : Int)) ∈ g
    · refine Or.inl ⟨if_pos hc, hc, ?_⟩
      have hmir := hs.mirror _ hc (show (0 : Int) ≤ 8 by decide)
        ((-1, 0), 8, 4) (by decide) (show hasExit 8 8 by decide)
      have hm2 := hmir.2
      simp only [] at hm2
      have hcell : ((t.1 + 1 + -1, t.2 + 0 + 0) : Cell) = t := by
        refine Prod.ext ?_ ?_ <;> simp only [] <;> omega
      rwa [hcell] at hm2
    · exact Or.inr (if_neg hc)
  · by_cases hc : ((t.1 + -1, t.2 + 0), (4 : Int)) ∈ g
    · refine Or.inl ⟨if_pos hc, hc, ?_⟩
      have hmir := hs.mirror _ hc (show (0 : Int) ≤ 4 by decide)
        ((1, 0), 4, 8) (by decide) (show hasExit 4 4 by decide)
      have hm2 := hmir.2
      simp only [] at hm2
      have hcell : ((t.1 + -1 + 1, t.2 + 0 + 0) : Cell) = t := by
        refine Prod.ext ?_ ?_ <;> simp only [] <;> omega
      rwa [hcell] at hm2
    · exact Or.inr (if_neg hc)
  · intro hc
    exact if_pos hc
  · intro hc
    exact if_pos hc
  · intro hc
    exact if_pos hc
  · intro hc
    exact if_pos hc


lemma pass_sparseInv {w h : Int} {g : Grid} (hs : SparseInv w h g) :
    SparseInv w h (sparsifyPass g) := by
  have hpp : sparsifyPass g = sparsifyItems g g := rfl
  have hmid0 : MidInv g g [] := by
    refine ⟨rfl, fun t ht => ⟨fun hz => absurd hz (zeroedBy_nil t), fun _ => ?_⟩⟩
    rw [recvSum_nil]
    omega
  have hmid := sparsifyItems_mid hs g [] g (by rw [List.nil_append]) hmid0
  rw [List.nil_append] at hmid
  obtain ⟨hk, hmask⟩ := hmid
  have hkeq : keysOf (sparsifyPass g) = keysOf g := by rw [hpp]; exact hk
  have hknd : (keysOf (sparsifyPass g)).Nodup := by rw [hkeq]; exact hs.nodup
  refine ⟨hknd, ?_, ?_, ?_⟩
  · intro c
    rw [hkeq]
    exact hs.keys c
  · intro p hp
    have hpk : p.1 ∈ keysOf g := by
      rw [← hkeq]
      exact List.mem_map.mpr ⟨p, hp, rfl⟩
    have hmAt : maskAt (sparsifyPass g) p.1 = p.2 :=
      maskAt_of_lookup (mem_lookupCell_of_nodup _ p.1 p.2 hknd hp)
    have hsnap_mem : (p.1, maskAt g p.1) ∈ g := mem_of_maskAt_of_key g p.1 hpk
    have hsnap_lt : maskAt g p.1 < 16 := hs.lt16 _ hsnap_mem
    have hrn := recvSum_nonneg g p.1
    by_cases hz : zeroedBy g p.1
    · have hle : maskAt (sparsifyPass g) p.1 ≤ 0 := by
        rw [hpp]
        exact (hmask p.1 hpk).1 hz
      omega
    · have hEnd : maskAt (sparsifyPass g) p.1
          = maskAt g p.1 - recvSum g p.1 := by
        rw [hpp]
        exact (hmask p.1 hpk).2 hz
      omega
  · intro p hp hm0 e he hbit
    have hpk : p.1 ∈ keysOf g := by
      rw [← hkeq]
      exact List.mem_map.mpr ⟨p, hp, rfl⟩
    have hmAt : maskAt (sparsifyPass g) p.1 = p.2 :=
      maskAt_of_lookup (mem_lookupCell_of_nodup _ p.1 p.2 hknd hp)
    have hsnap_mem : (p.1, maskAt g p.1) ∈ g := mem_of_maskAt_of_key g p.1 hpk
    have hsnap_lt : maskAt g p.1 < 16 := hs.lt16 _ hsnap_mem
    have hrn := recvSum_nonneg g p.1
    by_cases hz : zeroedBy g p.1
    · have hle : maskAt (sparsifyPass g) p.1 ≤ 0 := by
        rw [hpp]
        exact (hmask p.1 hpk).1 hz
      have hp0 : p.2 = 0 := by omega
      rw [hp0] at hbit
      exact absurd hbit (hasExit_zero e he)
    · have hEnd : maskAt (sparsifyPass g) p.1
          = maskAt g p.1 - recvSum g p.1 := by
        rw [hpp]
        exact (hmask p.1 hpk).2 hz
      have hpend : p.2 = maskAt g p.1 - recvSum g p.1 := by
        rw [← hmAt, hEnd]
      have hsnap_nonneg : 0 ≤ maskAt g p.1 := by omega
      obtain ⟨r1, r2, r4, r8, hsum, hd1, hd2, hd4, hd8, hi1, hi2, hi4, hi8⟩ :=
        recvSum_facts hs p.1
      have ha1 : (r1 = 1 ∧ hasExit (maskAt g p.1) 1) ∨ r1 = 0 := by
        rcases hd1 with ⟨x1, _, x3⟩ | x1
        · exact Or.inl ⟨x1, x3⟩
        · exact Or.inr x1
      have ha2 : (r2 = 2 ∧ hasExit (maskAt g p.1) 2) ∨ r2 = 0 := by
        rcases hd2 with ⟨x1, _, x3⟩ | x1
        · exact Or.inl ⟨x1, x3⟩
        · exact Or.inr x1
      have ha4 : (r4 = 4 ∧ hasExit (maskAt g p.1) 4) ∨ r4 = 0 := by
        rcases hd4 with ⟨x1, _, x3⟩ | x1
        · exact Or.inl ⟨x1, x3⟩
        · exact Or.inr x1
      have ha8 : (r8 = 8 ∧ hasExit (maskAt g p.1) 8) ∨ r8 = 0 := by
        rcases hd8 with ⟨x1, _, x3⟩ | x1
        · exact Or.inl ⟨x1, x3⟩
        · exact Or.inr x1
      rw [mem_exits_iff] at he
      rcases he with rfl | rfl | rfl | rfl
      · simp only [] at hbit ⊢
        have hsnapbit : hasExit (maskAt g p.1) 1 := by
          simp only [hasExit] at hbit ha1 ha2 ha4 ha8 ⊢
          omega
        have hmir := hs.mirror (p.1, maskAt g p.1) hsnap_mem hsnap_nonneg
          ((0, 1), 1, 2) (by decide) hsnapbit
        have hbnd := hmir.1
        have hmsn := hmir.2
        simp only [] at hbnd hmsn
        refine ⟨hbnd, ?_⟩
        have huk : (p.1.1 + 0, p.1.2 + 1) ∈ keysOf g := (hs.keys _).mpr hbnd
        by_cases hzu : zeroedBy g (p.1.1 + 0, p.1.2 + 1)
        · exfalso
          have hbitsu := (zeroedBy_self_iff hs.nodup _ huk).mp hzu
          have hu2 : maskAt g (p.1.1 + 0, p.1.2 + 1) = 2 := by
            simp only [hasExit] at hmsn
            omega
          have hmemu : ((p.1.1 + 0, p.1.2 + 1), (2 : Int)) ∈ g := by
            have hmm2 := mem_of_maskAt_of_key g (p.1.1 + 0, p.1.2 + 1) huk
            rw [hu2] at hmm2
            exact hmm2
          have hr := hi1 hmemu
          simp only [hasExit] at hbit ha1 ha2 ha4 ha8 hsnapbit
          omega
        · have hEndu : maskAt (sparsifyPass g) (p.1.1 + 0, p.1.2 + 1)
              = maskAt g (p.1.1 + 0, p.1.2 + 1) - recvSum g (p.1.1 + 0, p.1.2 + 1) := by
            rw [hpp]
            exact (hmask _ huk).2 hzu
          obtain ⟨s1, s2, s4, s8, hsumu, hf1, hf2, hf4, hf8, hj1, hj2, hj4, hj8⟩ :=
            recvSum_facts hs (p.1.1 + 0, p.1.2 + 1)
          have hns : s2 = 0 := by
            rcases hf2 with ⟨_, hmm, _⟩ | h0
            · exfalso
              have hcell : (((p.1.1 + 0, p.1.2 + 1).1 + 0, (p.1.1 + 0, p.1.2 + 1).2 + -1) : Cell) = p.1 := by
                refine Prod.ext ?_ ?_ <;> simp only [] <;> omega
              rw [hcell] at hmm
              have hl := mem_lookupCell_of_nodup g p.1 1 hs.nodup hmm
              have hmask1 := maskAt_of_lookup hl
              exact hz ((zeroedBy_self_iff hs.nodup p.1 hpk).mpr (Or.inl hmask1))
            · exact h0
          have hb1 : (s1 = 1 ∧ hasExit (maskAt g (p.1.1 + 0, p.1.2 + 1)) 1) ∨ s1 = 0 := by
            rcases hf1 with ⟨x1, _, x3⟩ | x1
            · exact Or.inl ⟨x1, x3⟩
            · exact Or.inr x1
          have hb4 : (s4 = 4 ∧ hasExit (maskAt g (p.1.1 + 0, p.1.2 + 1)) 4) ∨ s4 = 0 := by
            rcases hf4 with ⟨x1, _, x3⟩ | x1
            · exact Or.inl ⟨x1, x3⟩
            · exact Or.inr x1
          have hb8 : (s8 = 8 ∧ hasExit (maskAt g (p.1.1 + 0, p.1.2 + 1)) 8) ∨ s8 = 0 := by
            rcases hf8 with ⟨x1, _, x3⟩ | x1
            · exact Or.inl ⟨x1, x3⟩
            · exact Or.inr x1
          rw [hEndu]
          simp only [hasExit] at hmsn hb1 hb4 hb8 ⊢
          omega
      · simp only [] at hbit ⊢
        have hsnapbit : hasExit (maskAt g p.1) 2 := by
          simp only [hasExit] at hbit ha1 ha2 ha4 ha8 ⊢
          omega
        have hmir := hs.mirror (p.1, maskAt g p.1) hsnap_mem hsnap_nonneg
          ((0, -1), 2, 1) (by decide) hsnapbit
        have hbnd := hmir.1
        have hmsn := hmir.2
        simp only [] at hbnd hmsn
        refine ⟨hbnd, ?_⟩
        have huk : (p.1.1 + 0, p.1.2 + -1) ∈ keysOf g := (hs.keys _).mpr hbnd
        by_cases hzu : zeroedBy g (p.1.1 + 0, p.1.2 + -1)
        · exfalso
          have hbitsu := (zeroedBy_self_iff hs.nodup _ huk).mp hzu
          have hu2 : maskAt g (p.1.1 + 0, p.1.2 + -1) = 1 := by
            simp only [hasExit] at hmsn
            omega
          have hmemu : ((p.1.1 + 0, p.1.2 + -1), (1 : Int)) ∈ g := by
            have hmm2 := mem_of_maskAt_of_key g (p.1.1 + 0, p.1.2 + -1) huk
            rw [hu2] at hmm2
            exact hmm2
          have hr := hi2 hmemu
          simp only [hasExit] at hbit ha1 ha2 ha4 ha8 hsnapbit
          omega
        · have hEndu : maskAt (sparsifyPass g) (p.1.1 + 0, p.1.2 + -1)
              = maskAt g (p.1.1 + 0, p.1.2 + -1) - recvSum g (p.1.1 + 0, p.1.2 + -1) := by
            rw [hpp]
            exact (hmask _ huk).2 hzu
          obtain ⟨s1, s2, s4, s8, hsumu, hf1, hf2, hf4, hf8, hj1, hj2, hj4, hj8⟩ :=
            recvSum_facts hs (p.1.1 + 0, p.1.2 + -1)
          have hns : s1 = 0 := by
            rcases hf1 with ⟨_, hmm, _⟩ | h0
            · exfalso
              have hcell : (((p.1.1 + 0, p.1.2 + -1).1 + 0, (p.1.1 + 0, p.1.2 + -1).2 + 1) : Cell) = p.1 := by
                refine Prod.ext ?_ ?_ <;> simp only [] <;> omega
              rw [hcell] at hmm
              have hl := mem_lookupCell_of_nodup g p.1 2 hs.nodup hmm
              have hmask1 := maskAt_of_lookup hl
              exact hz ((zeroedBy_self_iff hs.nodup p.1 hpk).mpr (Or.inr (Or.inl hmask1)))
            · exact h0
          have hb2 : (s2 = 2 ∧ hasExit (maskAt g (p.1.1 + 0, p.1.2 + -1)) 2) ∨ s2 = 0 := by
            rcases hf2 with ⟨x1, _, x3⟩ | x1
            · exact Or.inl ⟨x1, x3⟩
            · exact Or.inr x1
          have hb4 : (s4 = 4 ∧ hasExit (maskAt g (p.1.1 + 0, p.1.2 + -1)) 4) ∨ s4 = 0 := by
            rcases hf4 with ⟨x1, _, x3⟩ | x1
            · exact Or.inl ⟨x1, x3⟩
            · exact Or.inr x1
          have hb8 : (s8 = 8 ∧ hasExit (maskAt g (p.1.1 + 0, p.1.2 + -1)) 8) ∨ s8 = 0 := by
            rcases hf8 with ⟨x1, _, x3⟩ | x1
            · exact Or.inl ⟨x1, x3⟩
            · exact Or.inr x1
          rw [hEndu]
          simp only [hasExit] at hmsn hb2 hb4 hb8 ⊢
          omega
      · simp only [] at hbit ⊢
        have hsnapbit : hasExit (maskAt g p.1) 4 := by
          simp only [hasExit] at hbit ha1 ha2 ha4 ha8 ⊢
          omega
        have hmir := hs.mirror (p.1, maskAt g p.1) hsnap_mem hsnap_nonneg
          ((1, 0), 4, 8) (by decide) hsnapbit
        have hbnd := hmir.1
        have hmsn := hmir.2
        simp only [] at hbnd hmsn
        refine ⟨hbnd, ?_⟩
        have huk : (p.1.1 + 1, p.1.2 + 0) ∈ keysOf g := (hs.keys _).mpr hbnd
        by_cases hzu : zeroedBy g (p.1.1 + 1, p.1.2 + 0)
        · exfalso
          have hbitsu := (zeroedBy_self_iff hs.nodup _ huk).mp hzu
          have hu2 : maskAt g (p.1.1 + 1, p.1.2 + 0) = 8 := by
            simp only [hasExit] at hmsn
            omega
          have hmemu : ((p.1.1 + 1, p.1.2 + 0), (8 : Int)) ∈ g := by
            have hmm2 := mem_of_maskAt_of_key g (p.1.1 + 1, p.1.2 + 0) huk
            rw [hu2] at hmm2
            exact hmm2
          have hr := hi4 hmemu
          simp only [hasExit] at hbit ha1 ha2 ha4 ha8 hsnapbit
          omega
        · have hEndu : maskAt (sparsifyPass g) (p.1.1 + 1, p.1.2 + 0)
              = maskAt g (p.1.1 + 1, p.1.2 + 0) - recvSum g (p.1.1 + 1, p.1.2 + 0) := by
            rw [hpp]
            exact (hmask _ huk).2 hzu
          obtain ⟨s1, s2, s4, s8, hsumu, hf1, hf2, hf4, hf8, hj1, hj2, hj4, hj8⟩ :=
            recvSum_facts hs (p.1.1 + 1, p.1.2 + 0)
          have hns : s8 = 0 := by
            rcases hf8 with ⟨_, hmm, _⟩ | h0
            · exfalso
              have hcell : (((p.1.1 + 1, p.1.2 + 0).1 + -1, (p.1.1 + 1, p.1.2 + 0).2 + 0) : Cell) = p.1 := by
                refine Prod.ext ?_ ?_ <;> simp only [] <;> omega
              rw [hcell] at hmm
              have hl := mem_lookupCell_of_nodup g p.1 4 hs.nodup hmm
              have hmask1 := maskAt_of_lookup hl
              exact hz ((zeroedBy_self_iff hs.nodup p.1 hpk).mpr (Or.inr (Or.inr (Or.inl hmask1))))
            · exact h0
          have hb1 : (s1 = 1 ∧ hasExit (maskAt g (p.1.1 + 1, p.1.2 + 0)) 1) ∨ s1 = 0 := by
            rcases hf1 with ⟨x1, _, x3⟩ | x1
            · exact Or.inl ⟨x1, x3⟩
            · exact Or.inr x1
          have hb2 : (s2 = 2 ∧ hasExit (maskAt g (p.1.1 + 1, p.1.2 + 0)) 2) ∨ s2 = 0 := by
            rcases hf2 with ⟨x1, _, x3⟩ | x1
            · exact Or.inl ⟨x1, x3⟩
            · exact Or.inr x1
          have hb4 : (s4 = 4 ∧ hasExit (maskAt g (p.1.1 + 1, p.1.2 + 0)) 4) ∨ s4 = 0 := by
            rcases hf4 with ⟨x1, _, x3⟩ | x1
            · exact Or.inl ⟨x1, x3⟩
            · exact Or.inr x1
          rw [hEndu]
          simp only [hasExit] at hmsn hb1 hb2 hb4 ⊢
          omega
      · simp only [] at hbit ⊢
        have hsnapbit : hasExit (maskAt g p.1) 8 := by
          simp only [hasExit] at hbit ha1 ha2 ha4 ha8 ⊢
          omega
        have hmir := hs.mirror (p.1, maskAt g p.1) hsnap_mem hsnap_nonneg
          ((-1, 0), 8, 4) (by decide) hsnapbit
        have hbnd := hmir.1
        have hmsn := hmir.2
        simp only [] at hbnd hmsn
        refine ⟨hbnd, ?_⟩
        have huk : (p.1.1 + -1, p.1.2 + 0) ∈ keysOf g := (hs.keys _).mpr hbnd
        by_cases hzu : zeroedBy g (p.1.1 + -1, p.1.2 + 0)
        · exfalso
          have hbitsu := (zeroedBy_self_iff hs.nodup _ huk).mp hzu
          have hu2 : maskAt g (p.1.1 + -1, p.1.2 + 0) = 4 := by
            simp only [hasExit] at hmsn
            omega
          have hmemu : ((p.1.1 + -1, p.1.2 + 0), (4 : Int)) ∈ g := by
            have hmm2 := mem_of_maskAt_of_key g (p.1.1 + -1, p.1.2 + 0) huk
            rw [hu2] at hmm2
            exact hmm2
          have hr := hi8 hmemu
          simp only [hasExit] at hbit ha1 ha2 ha4 ha8 hsnapbit
          omega
        · have hEndu : maskAt (sparsifyPass g) (p.1.1 + -1, p.1.2 + 0)
              = maskAt g (p.1.1 + -1, p.1.2 + 0) - recvSum g (p.1.1 + -1, p.1.2 + 0) := by
            rw [hpp]
            exact (hmask _ huk).2 hzu
          obtain ⟨s1, s2, s4, s8, hsumu, hf1, hf2, hf4, hf8, hj1, hj2, hj4, hj8⟩ :=
            recvSum_facts hs (p.1.1 + -1, p.1.2 + 0)
          have hns : s4 = 0 := by
            rcases hf4 with ⟨_, hmm, _⟩ | h0
            · exfalso
              have hcell : (((p.1.1 + -1, p.1.2 + 0).1 + 1, (p.1.1 + -1, p.1.2 + 0).2 + 0) : Cell) = p.1 := by
                refine Prod.ext ?_ ?_ <;> simp only [] <;> omega
              rw [hcell] at hmm
              have hl := mem_lookupCell_of_nodup g p.1 8 hs.nodup hmm
              have hmask1 := maskAt_of_lookup hl
              exact hz ((zeroedBy_self_iff hs.nodup p.1 hpk).mpr (Or.inr (Or.inr (Or.inr hmask1))))
            · exact h0
          have hb1 : (s1 = 1 ∧ hasExit (maskAt g (p.1.1 + -1, p.1.2 + 0)) 1) ∨ s1 = 0 := by
            rcases hf1 with ⟨x1, _, x3⟩ | x1
            · exact Or.inl ⟨x1, x3⟩
            · exact Or.inr x1
          have hb2 : (s2 = 2 ∧ hasExit (maskAt g (p.1.1 + -1, p.1.2 + 0)) 2) ∨ s2 = 0 := by
            rcases hf2 with ⟨x1, _, x3⟩ | x1
            · exact Or.inl ⟨x1, x3⟩
            · exact Or.inr x1
          have hb8 : (s8 = 8 ∧ hasExit (maskAt g (p.1.1 + -1, p.1.2 + 0)) 8) ∨ s8 = 0 := by
            rcases hf8 with ⟨x1, _, x3⟩ | x1
            · exact Or.inl ⟨x1, x3⟩
            · exact Or.inr x1
          rw [hEndu]
          simp only [hasExit] at hmsn hb1 hb2 hb8 ⊢
          omega

lemma sparseInv_of_genInv {w h : Int} {t : GenState} (hinv : GenInv w h t)
    (hemp : t.unvisited = []) : SparseInv w h t.visited := by
  have hperm : (keysOf t.visited).Perm (allCells w h) := by
    have hp := hinv.part
    rw [hemp, List.append_nil] at hp
    exact hp
  have hnd := hperm.nodup_iff.mpr (allCells_nodup w h)
  have hkeys : ∀ c, c ∈ keysOf t.visited ↔ inBounds w h c :=
    fun c => hperm.mem_iff.trans (mem_allCells w h c)
  refine ⟨hnd, hkeys, fun p hp => (hinv.range p hp).2, ?_⟩
  intro p hp _ e he hbit
  obtain ⟨m2, hl2, hb2⟩ := hinv.closure p hp e he hbit
  have htk : (p.1.1 + e.1.1, p.1.2 + e.1.2) ∈ keysOf t.visited :=
    (lookupCell_isSome_iff _ _).mp (by rw [hl2]; rfl)
  refine ⟨(hkeys _).mp htk, ?_⟩
  rw [maskAt_of_lookup hl2]
  exact hb2

lemma sparseInv_iterate {w h : Int} {g : Grid} (hs : SparseInv w h g) :
    ∀ j : Nat, SparseInv w h (sparsifyPass^[j] g) := by
  intro j
  induction j with
  | zero => exact hs
  | succ k ih =>
    rw [Function.iterate_succ_apply']
    exact pass_sparseInv ih

/-- C5: a generated grid only sets exit bits toward in-bounds neighbours,
and in every round of every subsequent `sparsify` call, each neighbour
lookup `visited[(x+nxd, y+nyd)]` performed for a dead-end entry is an
in-bounds cell that is a key of the dictionary (so it never raises
`KeyError` and never references a coordinate outside the grid). -/
theorem c5_bounds_safety (w h : Int) (r : Draws) (fuel : Nat) (g : Grid)
    (hw : 1 ≤ w) (hh : 1 ≤ h) (hr : validDraws w h r)
    (hok : generate w h r fuel = .ok g) :
    (∀ p ∈ g, ∀ e ∈ exitsList, hasExit p.2 e.2.1 →
        inBounds w h (p.1.1 + e.1.1, p.1.2 + e.1.2)) ∧
      ∀ j : Nat, ∀ p ∈ sparsifyPass^[j] g, ∀ x,
        single_corridor p.2 = some x →
        inBounds w h (p.1.1 + x.1.1, p.1.2 + x.1.2) ∧
          (p.1.1 + x.1.1, p.1.2 + x.1.2) ∈ keysOf (sparsifyPass^[j] g) := by
  unfold generate at hok
  rw [if_neg (by omega)] at hok
  cases hrun : genRun r fuel (initState w h r) with
  | none => rw [hrun] at hok; cases hok
  | some g2 =>
    rw [hrun] at hok
    injection hok with hg
    subst hg
    obtain ⟨t, hinv, hemp, hgv⟩ :=
      genRun_inv hr fuel (initState w h r) g2 (initState_inv hr) hrun
    subst hgv
    have hsi : SparseInv w h t.visited := sparseInv_of_genInv hinv hemp
    constructor
    · intro p hp e he hbit
      exact (hsi.mirror p hp (hinv.range p hp).1 e he hbit).1
    · intro j p hp x hx
      have hsj := sparseInv_iterate hsi j
      obtain ⟨e0, he0, hme, hxe⟩ := single_corridor_eq_some p.2 x hx
      have hfacts := exits_pos_bits e0 he0
      have hm0 : 0 ≤ p.2 := hme ▸ hfacts.2.2.1
      have hbit : hasExit p.2 e0.2.1 := hme ▸ hfacts.2.2.2.1
      have hmir := hsj.mirror p hp hm0 e0 he0 hbit
      have hx1 : x.1 = e0.1 := congrArg Prod.fst hxe
      rw [hx1]
      refine ⟨hmir.1, ?_⟩
      exact (hsj.keys _).mpr hmir.1

theorem c5_witness :
    (∀ p ∈ gTwo, ∀ e ∈ exitsList, hasExit p.2 e.2.1 →
        inBounds 2 1 (p.1.1 + e.1.1, p.1.2 + e.1.2)) ∧
      ∀ j : Nat, ∀ p ∈ sparsifyPass^[j] gTwo, ∀ x,
        single_corridor p.2 = some x →
        inBounds 2 1 (p.1.1 + x.1.1, p.1.2 + x.1.2) ∧
          (p.1.1 + x.1.1, p.1.2 + x.1.2) ∈ keysOf (sparsifyPass^[j] gTwo) :=
  c5_bounds_safety 2 1 (constDraws (0, 0)) 2 gTwo (by decide) (by decide)
    ⟨fun _ => (by decide : inBounds 2 1 (0, 0)),
      fun _ => List.Perm.refl exitsList⟩ (by decide)

lemma genRun_succ (r : Draws) (f : Nat) (s : GenState) :
    genRun r (f + 1) s =
      match genStep r s with
      | .inr g => some g
      | .inl t => genRun r f t := rfl

lemma genRun_step_lift {r : Draws} {s t : GenState} {fuel : Nat} {g : Grid}
    (hstep : genStep r s = Sum.inl t) (hg : genRun r fuel t = some g) :
    genRun r (fuel + 1) s = some g := by
  rw [genRun_succ, hstep]
  exact hg

lemma inBounds_mk (w h x y : Int) :
    inBounds w h (x, y) ↔ 0 ≤ x ∧ x < w ∧ 0 ≤ y ∧ y < h := Iff.rfl

lemma boundary_pair {w h : Int} {s : GenState} (hinv : GenInv w h s)
    (hne : s.unvisited ≠ []) :
    ∃ v, v ∈ keysOf s.visited ∧
      ∃ e ∈ exitsList, (v.1 + e.1.1, v.2 + e.1.2) ∈ s.unvisited := by
  obtain ⟨u, hu⟩ := List.exists_mem_of_ne_nil s.unvisited hne
  have hub : inBounds w h u := genInv_keys_inBounds hinv u (Or.inr hu)
  suffices H : ∀ n : Nat, ∀ v, v ∈ keysOf s.visited →
      (v.1 - u.1).natAbs + (v.2 - u.2).natAbs = n →
      ∃ v2, v2 ∈ keysOf s.visited ∧
        ∃ e ∈ exitsList, (v2.1 + e.1.1, v2.2 + e.1.2) ∈ s.unvisited by
    exact H _ s.current hinv.curKey rfl
  intro n
  induction n using Nat.strong_induction_on with
  | _ n ih =>
    intro v hv hn
    have hvb : inBounds w h v := genInv_keys_inBounds hinv v (Or.inl hv)
    have hvu : v ≠ u := by
      intro hq
      exact (genInv_nodup hinv).2.2 v hv (hq ▸ hu)
    have hvu2 : v.1 ≠ u.1 ∨ v.2 ≠ u.2 := by
      by_contra hq
      push_neg at hq
      exact hvu (Prod.ext hq.1 hq.2)
    unfold inBounds at hvb hub
    have move : ∀ (e : (Int × Int) × Int × Int), e ∈ exitsList →
        inBounds w h (v.1 + e.1.1, v.2 + e.1.2) →
        ((v.1 + e.1.1) - u.1).natAbs + ((v.2 + e.1.2) - u.2).natAbs < n →
        ∃ v2, v2 ∈ keysOf s.visited ∧
          ∃ e2 ∈ exitsList, (v2.1 + e2.1.1, v2.2 + e2.1.2) ∈ s.unvisited := by
      intro e he hb hlt
      have hall : (v.1 + e.1.1, v.2 + e.1.2) ∈ allCells w h :=
        (mem_allCells w h _).mpr hb
      have hmem : (v.1 + e.1.1, v.2 + e.1.2) ∈ keysOf s.visited ++ s.unvisited :=
        hinv.part.mem_iff.mpr hall
      rcases List.mem_append.mp hmem with hk | hunv
      · exact ih _ hlt _ hk rfl
      · exact ⟨v, hv, e, he, hunv⟩
    by_cases h1 : v.1 < u.1
    · refine move ((1, 0), 4, 8) (by decide) ?_ ?_
      · show 0 ≤ v.1 + 1 ∧ v.1 + 1 < w ∧ 0 ≤ v.2 + 0 ∧ v.2 + 0 < h
        omega
      · show ((v.1 + 1) - u.1).natAbs + ((v.2 + 0) - u.2).natAbs < n
        omega
    · by_cases h2 : u.1 < v.1
      · refine move ((-1, 0), 8, 4) (by decide) ?_ ?_
        · show 0 ≤ v.1 + -1 ∧ v.1 + -1 < w ∧ 0 ≤ v.2 + 0 ∧ v.2 + 0 < h
          omega
        · show ((v.1 + -1) - u.1).natAbs + ((v.2 + 0) - u.2).natAbs < n
          omega
      · by_cases h3 : v.2 < u.2
        · refine move ((0, 1), 1, 2) (by decide) ?_ ?_
          · show 0 ≤ v.1 + 0 ∧ v.1 + 0 < w ∧ 0 ≤ v.2 + 1 ∧ v.2 + 1 < h
            omega
          · show ((v.1 + 0) - u.1).natAbs + ((v.2 + 1) - u.2).natAbs < n
            omega
        · have h4 : u.2 < v.2 := by
            rcases hvu2 with hq | hq <;> omega
          refine move ((0, -1), 2, 1) (by decide) ?_ ?_
          · show 0 ≤ v.1 + 0 ∧ v.1 + 0 < w ∧ 0 ≤ v.2 + -1 ∧ v.2 + -1 < h
            omega
          · show ((v.1 + 0) - u.1).natAbs + ((v.2 + -1) - u.2).natAbs < n
            omega

lemma walk_carve_progress {w h : Int} {r : Draws} (hr : validDraws w h r)
    {s : GenState} (hinv : GenInv w h s) (hmode : s.mode = Mode.walk)
    (hne : s.unvisited ≠ []) {v : Cell × Int × Int}
    (hfn : findNeighbour s.unvisited s.current (r.perms s.pi) = some v) :
    ∃ t, genStep r s = Sum.inl t ∧ GenInv w h t ∧ t.mode = Mode.walk ∧
      t.unvisited.length + 1 = s.unvisited.length := by
  obtain ⟨n1, my, your⟩ := v
  obtain ⟨mo, unv, vis, cur, ci, pi⟩ := s
  simp only [] at hmode hne hfn ⊢
  subst hmode
  have hstep : genStep r ⟨Mode.walk, unv, vis, cur, ci, pi⟩
      = Sum.inl ⟨Mode.walk, removeCell unv n1,
          orCell vis cur my ++ [(n1, your)], n1, ci, pi + 1⟩ := by
    simp only [genStep]
    rw [if_neg hne, hfn]
  obtain ⟨hnu, d, hd, hne2⟩ := findNeighbour_some _ _ _ _ _ _ hfn
  refine ⟨_, hstep, genInv_step hr hinv hstep, rfl, ?_⟩
  exact removeCell_length unv n1 hnu

lemma reject_progress {w h : Int} {r : Draws} (hr : validDraws w h r)
    (vstar : Cell) :
    ∀ d : Nat, ∀ s : GenState, GenInv w h s → s.mode = Mode.reject →
      r.cells (s.ci + d) = vstar →
      vstar ∈ keysOf s.visited →
      (∃ e ∈ exitsList, (vstar.1 + e.1.1, vstar.2 + e.1.2) ∈ s.unvisited) →
      ∃ (k : Nat) (t : GenState), GenInv w h t ∧ t.mode = Mode.walk ∧
        t.unvisited.length + 1 = s.unvisited.length ∧
        (∀ fuel g, genRun r fuel t = some g → genRun r (fuel + k) s = some g) := by
  intro d
  induction d with
  | zero =>
    intro s hinv hmode hcell hv1 hv2
    obtain ⟨mo, unv, vis, cur, ci, pi⟩ := s
    simp only [] at hmode hcell hv1 hv2 ⊢
    subst hmode
    rw [Nat.add_zero] at hcell
    have hla : (lookupCell vis (r.cells ci)).isSome = true := by
      rw [hcell]
      exact (lookupCell_isSome_iff _ _).mpr hv1
    have hstep : genStep r ⟨Mode.reject, unv, vis, cur, ci, pi⟩
        = Sum.inl ⟨Mode.walk, unv, vis, r.cells ci, ci + 1, pi⟩ := by
      simp only [genStep]
      rw [if_pos hla]
    have hinv1 : GenInv w h ⟨Mode.walk, unv, vis, r.cells ci, ci + 1, pi⟩ :=
      genInv_step hr hinv hstep
    have hne : unv ≠ [] := by
      obtain ⟨e, he, hmem⟩ := hv2
      intro hq
      rw [hq] at hmem
      exact (List.not_mem_nil _) hmem
    obtain ⟨e, he, hmem⟩ := hv2
    have hfs : (findNeighbour unv (r.cells ci) (r.perms pi)).isSome = true := by
      refine findNeighbour_isSome unv (r.cells ci) (r.perms pi) e.1 e.2.1 e.2.2
        ?_ ?_
      · have : (e.1, e.2.1, e.2.2) = e := rfl
        rw [this]
        exact ((hr.2 pi).mem_iff).mpr he
      · rw [hcell]
        exact hmem
    cases hfn : findNeighbour unv (r.cells ci) (r.perms pi) with
    | none => rw [hfn] at hfs; cases hfs
    | some v =>
      obtain ⟨t2, hstep2, hinv2, hmode2, hlen2⟩ :=
        walk_carve_progress hr hinv1 rfl hne hfn
      refine ⟨2, t2, hinv2, hmode2, hlen2, ?_⟩
      intro fuel g hg
      exact genRun_step_lift hstep (genRun_step_lift hstep2 hg)
  | succ d ih =>
    intro s hinv hmode hcell hv1 hv2
    obtain ⟨mo, unv, vis, cur, ci, pi⟩ := s
    simp only [] at hmode hcell hv1 hv2 ⊢
    subst hmode
    by_cases hla : (lookupCell vis (r.cells ci)).isSome = true
    · have hstep : genStep r ⟨Mode.reject, unv, vis, cur, ci, pi⟩
          = Sum.inl ⟨Mode.walk, unv, vis, r.cells ci, ci + 1, pi⟩ := by
        simp only [genStep]
        rw [if_pos hla]
      have hinv1 : GenInv w h ⟨Mode.walk, unv, vis, r.cells ci, ci + 1, pi⟩ :=
        genInv_step hr hinv hstep
      have hne : unv ≠ [] := by
        obtain ⟨e, he, hmem⟩ := hv2
        intro hq
        rw [hq] at hmem
        exact (List.not_mem_nil _) hmem
      cases hfn : findNeighbour unv (r.cells ci) (r.perms pi) with
      | some v =>
        obtain ⟨t2, hstep2, hinv2, hmode2, hlen2⟩ :=
          walk_carve_progress hr hinv1 rfl hne hfn
        refine ⟨2, t2, hinv2, hmode2, hlen2, ?_⟩
        intro fuel g hg
        exact genRun_step_lift hstep (genRun_step_lift hstep2 hg)
      | none =>
        have hstep2 : genStep r ⟨Mode.walk, unv, vis, r.cells ci, ci + 1, pi⟩
            = Sum.inl ⟨Mode.reject, unv, vis, r.cells ci, ci + 1, pi + 1⟩ := by
          simp only [genStep]
          rw [if_neg hne, hfn]
        have hinv2 : GenInv w h
            ⟨Mode.reject, unv, vis, r.cells ci, ci + 1, pi + 1⟩ :=
          genInv_step hr hinv1 hstep2
        have hcell2 : r.cells (ci + 1 + d) = vstar := by
          rw [show ci + 1 + d = ci + (d + 1) from by omega]
          exact hcell
        obtain ⟨k, t, hinvt, hmodet, hlent, htrans⟩ :=
          ih ⟨Mode.reject, unv, vis, r.cells ci, ci + 1, pi + 1⟩ hinv2 rfl
            hcell2 hv1 hv2
        refine ⟨k + 2, t, hinvt, hmodet, hlent, ?_⟩
        intro fuel g hg
        exact genRun_step_lift hstep (genRun_step_lift hstep2 (htrans fuel g hg))
    · have hstep : genStep r ⟨Mode.reject, unv, vis, cur, ci, pi⟩
          = Sum.inl ⟨Mode.reject, unv, vis, cur, ci + 1, pi⟩ := by
        simp only [genStep]
        rw [if_neg hla]
      have hinv1 : GenInv w h ⟨Mode.reject, unv, vis, cur, ci + 1, pi⟩ :=
        genInv_step hr hinv hstep
      have hcell2 : r.cells (ci + 1 + d) = vstar := by
        rw [show ci + 1 + d = ci + (d + 1) from by omega]
        exact hcell
      obtain ⟨k, t, hinvt, hmodet, hlent, htrans⟩ :=
        ih ⟨Mode.reject, unv, vis, cur, ci + 1, pi⟩ hinv1 rfl hcell2 hv1 hv2
      refine ⟨k + 1, t, hinvt, hmodet, hlent, ?_⟩
      intro fuel g hg
      exact genRun_step_lift hstep (htrans fuel g hg)

/-- C7 (amended): when the draw stream is legal and fair — every grid cell
is drawn at arbitrarily late positions, as an unbounded uniform random
source is with probability one — `generate` runs to completion for some
fuel: the main loop exits with `unvisited` empty and the rejection loop
always terminates.  The unamended claim, quantifying over every infinite
draw sequence, is refuted by the adversarial stream of the counterexample. -/
theorem c7_termination_fair (w h : Int) (r : Draws)
    (hw : 1 ≤ w) (hh : 1 ≤ h) (hr : validDraws w h r)
    (hfair : fairCells w h r) :
    ∃ fuel g, generate w h r fuel = GenResult.ok g := by
  suffices H : ∀ n : Nat, ∀ s : GenState, GenInv w h s → s.mode = Mode.walk →
      s.unvisited.length = n → ∃ fuel g, genRun r fuel s = some g by
    obtain ⟨fuel, g, hg⟩ := H (initState w h r).unvisited.length
      (initState w h r) (initState_inv hr) rfl rfl
    refine ⟨fuel, g, ?_⟩
    unfold generate
    rw [if_neg (by omega), hg]
  intro n
  induction n using Nat.strong_induction_on with
  | _ n ih =>
    intro s hinv hmode hlen
    by_cases hne : s.unvisited = []
    · refine ⟨0 + 1, s.visited, ?_⟩
      rw [genRun_succ]
      obtain ⟨mo, unv, vis, cur, ci, pi⟩ := s
      simp only [] at hmode hne
      subst hmode
      subst hne
      have hstep : genStep r ⟨Mode.walk, [], vis, cur, ci, pi⟩
          = Sum.inr vis := by
        simp [genStep]
      rw [hstep]
    · cases hfn : findNeighbour s.unvisited s.current (r.perms s.pi) with
      | some v =>
        obtain ⟨t, hstep, hinvt, hmodet, hlent⟩ :=
          walk_carve_progress hr hinv hmode hne hfn
        obtain ⟨fuel, g, hg⟩ := ih t.unvisited.length (by omega) t hinvt
          hmodet rfl
        exact ⟨fuel + 1, g, genRun_step_lift hstep hg⟩
      | none =>
        obtain ⟨vstar, hv1, e, he, hv2⟩ := boundary_pair hinv hne
        have hvb : inBounds w h vstar :=
          genInv_keys_inBounds hinv vstar (Or.inl hv1)
        obtain ⟨mo, unv, vis, cur, ci, pi⟩ := s
        simp only [] at hmode hne hfn hv1 hv2 hlen ⊢
        subst hmode
        have hstep : genStep r ⟨Mode.walk, unv, vis, cur, ci, pi⟩
            = Sum.inl ⟨Mode.reject, unv, vis, cur, ci, pi + 1⟩ := by
          simp only [genStep]
          rw [if_neg hne, hfn]
        have hinv1 : GenInv w h ⟨Mode.reject, unv, vis, cur, ci, pi + 1⟩ :=
          genInv_step hr hinv hstep
        obtain ⟨j, hj1, hj2⟩ := hfair vstar hvb ci
        have hcell : r.cells (ci + (j - ci)) = vstar := by
          rw [show ci + (j - ci) = j from by omega]
          exact hj2
        obtain ⟨k, t, hinvt, hmodet, hlent, htrans⟩ :=
          reject_progress hr vstar (j - ci)
            ⟨Mode.reject, unv, vis, cur, ci, pi + 1⟩ hinv1 rfl hcell hv1
            ⟨e, he, hv2⟩
        obtain ⟨fuel, g, hg⟩ := ih t.unvisited.length (by
          simp only [] at hlent
          omega) t hinvt hmodet rfl
        exact ⟨fuel + k + 1, g, genRun_step_lift hstep (htrans fuel g hg)⟩

lemma badDraws_reject_diverges :
    ∀ fuel : Nat, ∀ ci : Nat, 1 ≤ ci →
      genRun badDraws fuel
        ⟨Mode.reject, [((0 : Int), (0 : Int))],
          [(((1 : Int), (0 : Int)), (4 : Int)),
            (((2 : Int), (0 : Int)), (8 : Int))],
          ((2 : Int), (0 : Int)), ci, 2⟩ = none := by
  intro fuel
  induction fuel with
  | zero =>
    intro ci hci
    rfl
  | succ k ih =>
    intro ci hci
    have hcell : badDraws.cells ci = ((0 : Int), (0 : Int)) := by
      show (if ci = 0 then ((1 : Int), (0 : Int)) else (0, 0)) = (0, 0)
      rw [if_neg (by omega)]
    have hstep : genStep badDraws
        ⟨Mode.reject, [((0 : Int), (0 : Int))],
          [(((1 : Int), (0 : Int)), (4 : Int)),
            (((2 : Int), (0 : Int)), (8 : Int))],
          ((2 : Int), (0 : Int)), ci, 2⟩
        = Sum.inl ⟨Mode.reject, [((0 : Int), (0 : Int))],
            [(((1 : Int), (0 : Int)), (4 : Int)),
              (((2 : Int), (0 : Int)), (8 : Int))],
            ((2 : Int), (0 : Int)), ci + 1, 2⟩ := by
      simp only [genStep]
      rw [hcell]
      rw [if_neg (show ¬ ((lookupCell
        [(((1 : Int), (0 : Int)), (4 : Int)),
          (((2 : Int), (0 : Int)), (8 : Int))]
        ((0 : Int), (0 : Int))).isSome = true) by decide)]
    rw [genRun_succ, hstep]
    exact ih (ci + 1) (by omega)

lemma badDraws_diverges : divergesFrom badDraws (initState 3 1 badDraws) := by
  have h1 : genStep badDraws (initState 3 1 badDraws)
      = Sum.inl ⟨Mode.walk, [((0 : Int), (0 : Int))],
          [(((1 : Int), (0 : Int)), (4 : Int)),
            (((2 : Int), (0 : Int)), (8 : Int))],
          ((2 : Int), (0 : Int)), 1, 1⟩ := rfl
  have h2 : genStep badDraws
      ⟨Mode.walk, [((0 : Int), (0 : Int))],
        [(((1 : Int), (0 : Int)), (4 : Int)),
          (((2 : Int), (0 : Int)), (8 : Int))],
        ((2 : Int), (0 : Int)), 1, 1⟩
      = Sum.inl ⟨Mode.reject, [((0 : Int), (0 : Int))],
          [(((1 : Int), (0 : Int)), (4 : Int)),
            (((2 : Int), (0 : Int)), (8 : Int))],
          ((2 : Int), (0 : Int)), 1, 2⟩ := rfl
  intro fuel
  cases fuel with
  | zero => rfl
  | succ f =>
    rw [genRun_succ, h1]
    show genRun badDraws f _ = none
    cases f with
    | zero => rfl
    | succ k =>
      rw [genRun_succ, h2]
      show genRun badDraws k _ = none
      exact badDraws_reject_diverges k 1 (le_refl 1)

/-- Counterexample to C7 as stated: a legal draw stream on the 3 by 1 grid
that starts at the middle cell and then draws the never-visited corner
`(0, 0)` forever; the rejection-sampling loop never finds a visited cell,
so `generate` does not terminate for any amount of fuel. -/
theorem c7_unfair_divergence :
    validDraws 3 1 badDraws ∧ divergesFrom badDraws (initState 3 1 badDraws) := by
  constructor
  · constructor
    · intro i
      show inBounds 3 1 (if i = 0 then ((1 : Int), (0 : Int)) else (0, 0))
      by_cases hi : i = 0
      · rw [if_pos hi]
        decide
      · rw [if_neg hi]
        decide
    · intro i
      exact List.Perm.refl exitsList
  · exact badDraws_diverges

theorem c7_witness :
    ∃ fuel g, generate 1 1 (constDraws (0, 0)) fuel = GenResult.ok g :=
  c7_termination_fair 1 1 (constDraws (0, 0)) (by decide) (by decide)
    ⟨fun _ => (by decide : inBounds 1 1 (0, 0)),
      fun _ => List.Perm.refl exitsList⟩
    (fun c hc i => ⟨i, Nat.le_refl i, by
      obtain ⟨h1, h2, h3, h4⟩ := hc
      show ((0 : Int), (0 : Int)) = c
      refine Prod.ext ?_ ?_
      · show (0 : Int) = c.1
        omega
      · show (0 : Int) = c.2
        omega⟩)
